import Mathlib

/-!
# Merkle tree (`internal/merkle/merkle_tree.go`)

A shallow embedding of the Go package `merkle`.

* Go pointers `*Node` are addresses (natural numbers) into an arena `Heap` (a list of
  `Node` cells); a non-nil pointer is a `Nat`, a nullable one an `Option Nat` and the nil
  pointer is `none`.  `&Node{...}` appends a cell and yields its address.
* A byte slice the package itself stores or returns (a digest in a node, in a generated
  proof) is a list of numbers, a value: every stored digest is the whole of its own
  `[32]byte` array, so `append` in `hashNodes` copies it, and an update assigns a new slice
  to `Hash`; nothing writes into it.
* The byte slices a caller hands to `VerifyProof` are modelled with their backing arrays
  (`Slice`, `Memory`, `goAppend`): a slice with spare capacity is written into by
  `append` in `hashNodes`.  `Slices.VerifyProof` is the function on such slices.
  `VerifyProof` is that function run on a proof and a root given by their bytes, each in an
  array of its own without spare capacity; `VerifyProof_any_placement` shows that it gives
  the answer of `Slices.VerifyProof` for all slices without spare capacity, wherever they
  lie and however they overlap.
* The digest `sha256.Sum256` comes from the standard library and is a parameter
  `H : Bytes → Bytes` of every definition that hashes.
* A Go `error` result is a value `Except GoError _`; a run-time panic or a recursion that
  never returns is a `Fault`.
* `buildTree` (recursive) and the loop of `GenerateProof` take a fuel argument; running
  out of fuel is the fault `Fault.outOfFuel`.
* The `fmt.Printf` calls are not modelled.
* A method of `*MerkleTree` takes the `State` (arena and tree struct) and, when it
  assigns, returns the new state with its result, also when the result is an error.

The first part of the file holds the definitions: the translation of the source, then the
reference functions and state predicates the lemmas are stated with.  The second part
holds the lemmas and the claims `C1`, `C2`, ...
-/

namespace Merkle

/-- A byte slice `[]byte`. -/
abbrev Bytes := List Nat

/-- The Go struct `Node`. -/
structure Node where
  Left : Option Nat
  Right : Option Nat
  Parent : Option Nat
  Hash : Bytes
deriving DecidableEq, Repr

/-- The arena holding every allocated `Node`. -/
abbrev Heap := List Node

/-- The Go struct `MerkleTree`. -/
structure MerkleTree where
  Root : Option Nat
  LeafNodes : List Nat
deriving DecidableEq, Repr

/-- The Go struct `MerkleProof` as `GenerateProof` fills it: every byte slice is the whole of
a stored digest, given by its bytes. (`Slices.MerkleProof` is the struct as a caller may
build it.) -/
structure MerkleProof where
  LeafHash : Bytes
  Proof : List Bytes
  IsLeft : List Bool
deriving DecidableEq, Repr

/-- The ways a call can fail to return: a nil (or dangling) pointer dereference, a slice
index out of range, or a computation that exhausts its fuel. -/
inductive Fault where
  | nilDereference
  | indexOutOfRange
  | outOfFuel
deriving DecidableEq, Repr

/-- The `error` values the package creates with `errors.New`:
"invalid leaf index", "sibling node is unexpectedly nil",
"mismatched leaf indices and data length". -/
inductive GoError where
  | invalidLeafIndex
  | siblingNil
  | mismatchedLength
deriving DecidableEq, Repr

deriving instance DecidableEq for Except

/-- The memory a `*MerkleTree` receiver sees: the arena and the tree struct. -/
structure State where
  heap : Heap
  tree : MerkleTree
deriving DecidableEq, Repr

/-- Read the cell a pointer refers to. -/
def deref (heap : Heap) (p : Nat) : Except Fault Node :=
  match heap[p]? with
  | some n => .ok n
  | none => .error .nilDereference

/-- The assignment `p.Parent = q`. -/
def setParent (heap : Heap) (p : Nat) (q : Nat) : Except Fault Heap :=
  match heap[p]? with
  | some n => .ok (heap.set p { n with Parent := some q })
  | none => .error .nilDereference

/-- The assignment `p.Hash = h`. -/
def setHash (heap : Heap) (p : Nat) (h : Bytes) : Except Fault Heap :=
  match heap[p]? with
  | some n => .ok (heap.set p { n with Hash := h })
  | none => .error .nilDereference

/-- The function `hashNodes`: the digest of `left.Hash` followed by `right.Hash`. -/
def hashNodes (H : Bytes → Bytes) (heap : Heap) (left right : Nat) : Except Fault Bytes :=
  match deref heap left with
  | .error e => .error e
  | .ok l =>
    match deref heap right with
    | .error e => .error e
    | .ok r => .ok (H (l.Hash ++ r.Hash))

/-- The `for i := 0; i < len(nodes); i += 2` loop of `buildTree`: it consumes the level
two nodes at a time, allocates the parent, sets the `Parent` links and collects
`newLevel`. -/
def buildLevel (H : Bytes → Bytes) : Heap → List Nat → Except Fault (Heap × List Nat)
  | heap, [] => .ok (heap, [])
  | heap, [a] =>
    match hashNodes H heap a a with
    | .error e => .error e
    | .ok h =>
      let newNode := heap.length
      match setParent (heap ++ [{ Left := some a, Right := some a, Parent := none, Hash := h }])
          a newNode with
      | .error e => .error e
      | .ok heap1 => .ok (heap1, [newNode])
  | heap, a :: b :: rest =>
    match hashNodes H heap a b with
    | .error e => .error e
    | .ok h =>
      let newNode := heap.length
      match setParent (heap ++ [{ Left := some a, Right := some b, Parent := none, Hash := h }])
          a newNode with
      | .error e => .error e
      | .ok heap1 =>
        match setParent heap1 b newNode with
        | .error e => .error e
        | .ok heap2 =>
          match buildLevel H heap2 rest with
          | .error e => .error e
          | .ok (heap3, newLevel) => .ok (heap3, newNode :: newLevel)

/-- The function `buildTree`; one unit of fuel per call. -/
def buildTree (H : Bytes → Bytes) : Nat → Heap → List Nat → Except Fault (Heap × Nat)
  | 0, _, _ => .error .outOfFuel
  | fuel + 1, heap, nodes =>
    if nodes.length = 1 then
      match nodes[0]? with
      | some r => .ok (heap, r)
      | none => .error .indexOutOfRange
    else
      match buildLevel H heap nodes with
      | .error e => .error e
      | .ok (heap1, newLevel) => buildTree H fuel heap1 newLevel

/-- The `for _, datum := range data` loop of `NewMerkleTree`. -/
def newLeaves (H : Bytes → Bytes) : Heap → List Bytes → Heap × List Nat
  | heap, [] => (heap, [])
  | heap, datum :: rest =>
    let r := newLeaves H
      (heap ++ [{ Left := none, Right := none, Parent := none, Hash := H datum }]) rest
    (r.1, heap.length :: r.2)

/-- The function `NewMerkleTree`, run on an empty arena. -/
def NewMerkleTree (H : Bytes → Bytes) (fuel : Nat) (data : List Bytes) : Except Fault State :=
  let r := newLeaves H [] data
  match buildTree H fuel r.1 r.2 with
  | .error e => .error e
  | .ok (heap, root) => .ok { heap := heap, tree := { Root := some root, LeafNodes := r.2 } }

/-- The function `isLeftNode`. -/
def isLeftNode (heap : Heap) (node : Nat) : Except Fault Bool :=
  match deref heap node with
  | .error e => .error e
  | .ok n =>
    match n.Parent with
    | none => .ok false
    | some par =>
      match deref heap par with
      | .error e => .error e
      | .ok pn => .ok (decide (pn.Left = some node))

/-- The function `getSibling`. -/
def getSibling (heap : Heap) (node : Nat) : Except Fault (Option Nat) :=
  match deref heap node with
  | .error e => .error e
  | .ok n =>
    match n.Parent with
    | none => .ok none
    | some par =>
      match isLeftNode heap node with
      | .error e => .error e
      | .ok l =>
        match deref heap par with
        | .error e => .error e
        | .ok pn => if l then .ok pn.Right else .ok pn.Left

/-- The `for current.Parent != nil` loop of `GenerateProof`; one unit of fuel per test of
the loop condition. -/
def proofLoop : Nat → Heap → Nat → MerkleProof → Except Fault (Except GoError MerkleProof)
  | 0, _, _, _ => .error .outOfFuel
  | fuel + 1, heap, current, proof =>
    match deref heap current with
    | .error e => .error e
    | .ok c =>
      match c.Parent with
      | none => .ok (.ok proof)
      | some par =>
        match getSibling heap current with
        | .error e => .error e
        | .ok none => .ok (.error .siblingNil)
        | .ok (some sibling) =>
          match deref heap sibling with
          | .error e => .error e
          | .ok s =>
            match isLeftNode heap sibling with
            | .error e => .error e
            | .ok l =>
              proofLoop fuel heap par
                { proof with Proof := proof.Proof ++ [s.Hash], IsLeft := proof.IsLeft ++ [l] }

/-- The method `GenerateProof`. -/
def GenerateProof (fuel : Nat) (st : State) (leafIndex : Int) :
    Except Fault (Except GoError MerkleProof) :=
  if leafIndex < 0 ∨ leafIndex ≥ (st.tree.LeafNodes.length : Int) then
    .ok (.error .invalidLeafIndex)
  else
    match st.tree.LeafNodes[leafIndex.toNat]? with
    | none => .error .indexOutOfRange
    | some leaf =>
      match deref st.heap leaf with
      | .error e => .error e
      | .ok n => proofLoop fuel st.heap leaf { LeafHash := n.Hash, Proof := [], IsLeft := [] }

/-- A Go `[]byte` as a caller holds it: the window of `len` bytes at offset `off` of the
backing array `arr`, with room for `cap` bytes. -/
structure Slice where
  arr : Nat
  off : Nat
  len : Nat
  cap : Nat
deriving DecidableEq, Repr

/-- The backing arrays of the byte slices in use. -/
abbrev Memory := List Bytes

/-- The bytes a slice shows. -/
def readSlice (mem : Memory) (s : Slice) : Except Fault Bytes :=
  match mem[s.arr]? with
  | none => .error .nilDereference
  | some a =>
    if s.off + s.cap ≤ a.length ∧ s.len ≤ s.cap then .ok ((a.drop s.off).take s.len)
    else .error .indexOutOfRange

/-- The Go built-in `append(s, t...)`. When the backing array of `s` has room for the
bytes of `t` they are written into it, right after the bytes of `s`, and the result is a
longer window of the same array; otherwise the result is a new array. (Go may give the new
array spare capacity; the code only reads the result, so none is modelled.) -/
def goAppend (mem : Memory) (s t : Slice) : Except Fault (Slice × Memory) :=
  match readSlice mem s with
  | .error e => .error e
  | .ok a =>
    match readSlice mem t with
    | .error e => .error e
    | .ok b =>
      if s.len + t.len ≤ s.cap then
        match mem[s.arr]? with
        | none => .error .nilDereference
        | some array =>
          .ok ({ s with len := s.len + t.len },
            mem.set s.arr
              (array.take (s.off + s.len) ++ b ++ array.drop (s.off + s.len + t.len)))
      else
        .ok (⟨mem.length, 0, (a ++ b).length, (a ++ b).length⟩, mem ++ [a ++ b])

namespace Slices

/-- The Go struct `MerkleProof` as a caller of `VerifyProof` may build it: its byte slices
are windows of backing arrays, which may have spare capacity and may overlap. -/
structure MerkleProof where
  LeafHash : Slice
  Proof : List Slice
  IsLeft : List Bool
deriving DecidableEq, Repr

/-- The function `hashNodes` on the temporary nodes of `VerifyProof`, each given by its
`Hash` slice: `combined := append(left.Hash, right.Hash...)`, then the digest of
`combined` in a new array of its own. -/
def hashNodes (H : Bytes → Bytes) (mem : Memory) (left right : Slice) :
    Except Fault (Slice × Memory) :=
  match goAppend mem left right with
  | .error e => .error e
  | .ok (combined, mem1) =>
    match readSlice mem1 combined with
    | .error e => .error e
    | .ok c => .ok (⟨mem1.length, 0, (H c).length, (H c).length⟩, mem1 ++ [H c])

/-- The `for i, hash := range proof.Proof` loop of `VerifyProof`, from position `i`. -/
def verifyLoop (H : Bytes → Bytes) (isLeft : List Bool) :
    Memory → List Slice → Nat → Slice → Except Fault (Slice × Memory)
  | mem, [], _, current => .ok (current, mem)
  | mem, hash :: rest, i, current =>
    match isLeft[i]? with
    | none => .error .indexOutOfRange
    | some true =>
      match hashNodes H mem hash current with
      | .error e => .error e
      | .ok (current1, mem1) => verifyLoop H isLeft mem1 rest (i + 1) current1
    | some false =>
      match hashNodes H mem current hash with
      | .error e => .error e
      | .ok (current1, mem1) => verifyLoop H isLeft mem1 rest (i + 1) current1

/-- The function `VerifyProof` on the caller's slices: its answer and the memory it
leaves. -/
def VerifyProof (H : Bytes → Bytes) (mem : Memory) (proof : MerkleProof) (rootHash : Slice) :
    Except Fault (Bool × Memory) :=
  match verifyLoop H proof.IsLeft mem proof.Proof 0 proof.LeafHash with
  | .error e => .error e
  | .ok (current, mem1) =>
    match readSlice mem1 current with
    | .error e => .error e
    | .ok c =>
      match readSlice mem1 rootHash with
      | .error e => .error e
      | .ok r => .ok (decide (c = r), mem1)

end Slices

/-- The slice that shows the whole of the array at index `k`, which holds `b`: no spare
capacity. -/
def fullSlice (k : Nat) (b : Bytes) : Slice := ⟨k, 0, b.length, b.length⟩

/-- The whole-array slices of consecutive arrays, from index `k` on. -/
def fullSlices : Nat → List Bytes → List Slice
  | _, [] => []
  | k, b :: rest => fullSlice k b :: fullSlices (k + 1) rest

/-- The function `VerifyProof` on a proof and a root whose byte slices have no spare
capacity, as `GenerateProof` and `GetRootHash` return them (every stored digest is the
whole of its own array): `Slices.VerifyProof` run with each byte string in an array of its
own. -/
def VerifyProof (H : Bytes → Bytes) (proof : MerkleProof) (rootHash : Bytes) :
    Except Fault Bool :=
  match Slices.VerifyProof H (proof.LeafHash :: rootHash :: proof.Proof)
      ⟨fullSlice 0 proof.LeafHash, fullSlices 2 proof.Proof, proof.IsLeft⟩
      (fullSlice 1 rootHash) with
  | .error e => .error e
  | .ok (b, _) => .ok b

/-- The expression `tree.Root.Hash`. -/
def rootHash (heap : Heap) (tree : MerkleTree) : Except Fault Bytes :=
  match tree.Root with
  | none => .error .nilDereference
  | some r =>
    match deref heap r with
    | .error e => .error e
    | .ok n => .ok n.Hash

/-- The method `GetRootHash`. -/
def GetRootHash (st : State) : Except Fault Bytes :=
  rootHash st.heap st.tree

/-- The tail shared by `UpdateLeaf` and `UpdateLeaves`:
`tree.Root = buildTree(tree.LeafNodes); return tree.Root.Hash, nil`. -/
def rebuild (H : Bytes → Bytes) (fuel : Nat) (heap : Heap) (tree : MerkleTree) :
    Except Fault (Except GoError Bytes × State) :=
  match buildTree H fuel heap tree.LeafNodes with
  | .error e => .error e
  | .ok (heap1, root) =>
    let tree1 : MerkleTree := { tree with Root := some root }
    match rootHash heap1 tree1 with
    | .error e => .error e
    | .ok h => .ok (.ok h, { heap := heap1, tree := tree1 })

/-- The method `UpdateLeaf`. The state is returned with the result, also on an error. -/
def UpdateLeaf (H : Bytes → Bytes) (fuel : Nat) (st : State) (leafIndex : Int)
    (newData : Bytes) : Except Fault (Except GoError Bytes × State) :=
  if leafIndex < 0 ∨ leafIndex ≥ (st.tree.LeafNodes.length : Int) then
    .ok (.error .invalidLeafIndex, st)
  else
    match st.tree.LeafNodes[leafIndex.toNat]? with
    | none => .error .indexOutOfRange
    | some leaf =>
      match setHash st.heap leaf (H newData) with
      | .error e => .error e
      | .ok heap1 => rebuild H fuel heap1 st.tree

/-- The `for i, index := range leafIndices` loop of `UpdateLeaves`, from position `i`:
the heap after the loop, with `none` when it ran to the end and `some err` when it
returned early. -/
def updateLoop (H : Bytes → Bytes) (tree : MerkleTree) (newDatas : List Bytes) :
    Heap → List Int → Nat → Except Fault (Option GoError × Heap)
  | heap, [], _ => .ok (none, heap)
  | heap, index :: rest, i =>
    if index < 0 ∨ index ≥ (tree.LeafNodes.length : Int) then
      .ok (some .invalidLeafIndex, heap)
    else
      match newDatas[i]? with
      | none => .error .indexOutOfRange
      | some newData =>
        match tree.LeafNodes[index.toNat]? with
        | none => .error .indexOutOfRange
        | some leaf =>
          match setHash heap leaf (H newData) with
          | .error e => .error e
          | .ok heap1 => updateLoop H tree newDatas heap1 rest (i + 1)

/-- The method `UpdateLeaves`. The state is returned with the result, also on an error. -/
def UpdateLeaves (H : Bytes → Bytes) (fuel : Nat) (st : State) (leafIndices : List Int)
    (newDatas : List Bytes) : Except Fault (Except GoError Bytes × State) :=
  if leafIndices.length ≠ newDatas.length then
    .ok (.error .mismatchedLength, st)
  else
    match updateLoop H st.tree newDatas st.heap leafIndices 0 with
    | .error e => .error e
    | .ok (some err, heap1) => .ok (.error err, { st with heap := heap1 })
    | .ok (none, heap1) => rebuild H fuel heap1 st.tree

/-- The method `GetLeafHash`. -/
def GetLeafHash (st : State) (leafIndex : Int) : Except Fault (Except GoError Bytes) :=
  if leafIndex < 0 ∨ leafIndex ≥ (st.tree.LeafNodes.length : Int) then
    .ok (.error .invalidLeafIndex)
  else
    match st.tree.LeafNodes[leafIndex.toNat]? with
    | none => .error .indexOutOfRange
    | some leaf =>
      match deref st.heap leaf with
      | .error e => .error e
      | .ok n => .ok (.ok n.Hash)

/-- The `for _, node := range tree.LeafNodes` scan of `ValidateLeaf`. -/
def validateLoop (heap : Heap) (leafHash : Bytes) : List Nat → Except Fault Bool
  | [] => .ok false
  | node :: rest =>
    match deref heap node with
    | .error e => .error e
    | .ok n => if n.Hash = leafHash then .ok true else validateLoop heap leafHash rest

/-- The method `ValidateLeaf`. -/
def ValidateLeaf (st : State) (leafHash : Bytes) : Except Fault Bool :=
  validateLoop st.heap leafHash st.tree.LeafNodes

/-! ## Reference functions and state predicates

The definitions below are not translations of source functions.  `levelHashes`,
`merkleRoot`, `pathSpec` and `foldPath` compute on lists of digests what the code computes
through the arena; `Chain`, `BuildPost`, `WellFormed`, `Consistent`, `Ready` and `Reachable`
describe arenas and states, `FullAt` and `Extends` slices and memories; `buildLevels` and
`updateSeq` compose source functions (the loop of `buildTree` run several times,
`UpdateLeaf` called several times).  The claims are stated with the source definitions,
`Reachable`, `foldPath` (C14), `buildLevels` (C17) and `updateSeq` (C18); the others serve
the lemmas. -/

/-- The digests of the next level, computed from the digests of a level: adjacent pairs
are hashed together and an unpaired last digest is hashed with itself. -/
def levelHashes (H : Bytes → Bytes) : List Bytes → List Bytes
  | [] => []
  | [a] => [H (a ++ a)]
  | a :: b :: rest => H (a ++ b) :: levelHashes H rest

/-- The root digest over a level of digests, with the fuel of `buildTree`. -/
def merkleRoot (H : Bytes → Bytes) : Nat → List Bytes → Option Bytes
  | 0, _ => none
  | fuel + 1, hs => if hs.length = 1 then hs[0]? else merkleRoot H fuel (levelHashes H hs)

/-- The position of the sibling of position `j` in a level of `n` nodes. -/
def sibIdx (n j : Nat) : Nat :=
  if j % 2 = 1 then j - 1 else if j + 1 < n then j + 1 else j

/-- Whether the sibling of position `j` in a level of `n` nodes is a left child. -/
def sibFlag (n j : Nat) : Bool :=
  if j % 2 = 1 then true else if j + 1 < n then false else true

/-- The audit path of position `j` over a level of digests. -/
def pathSpec (H : Bytes → Bytes) : Nat → List Bytes → Nat → List (Bytes × Bool)
  | 0, _, _ => []
  | fuel + 1, hs, j =>
    if hs.length = 1 then []
    else (hs.getD (sibIdx hs.length j) [], sibFlag hs.length j) ::
      pathSpec H fuel (levelHashes H hs) (j / 2)

/-- The fold of `VerifyProof` over an audit path. -/
def foldPath (H : Bytes → Bytes) : Bytes → List (Bytes × Bool) → Bytes
  | current, [] => current
  | current, (hash, true) :: rest => foldPath H (H (hash ++ current)) rest
  | current, (hash, false) :: rest => foldPath H (H (current ++ hash)) rest

/-- The digest stored in the cell at an address (empty when the address is not allocated). -/
def hashOf (heap : Heap) (p : Nat) : Bytes :=
  match heap[p]? with
  | some n => n.Hash
  | none => []

/-- The walk of `GenerateProof` from a node to the root, seen in the arena: `Chain heap p
sibs r` says that following `Parent` links from `p` ends at the parentless node `r` and meets
the siblings `sibs` (each with the answer of `isLeftNode` for it) on the way. -/
inductive Chain (heap : Heap) : Nat → List (Nat × Bool) → Nat → Prop
  | root {p : Nat} {n : Node} : heap[p]? = some n → n.Parent = none → Chain heap p [] p
  | step {p q s r : Nat} {n nq ns : Node} {sibs : List (Nat × Bool)} :
      heap[p]? = some n → n.Parent = some q → heap[q]? = some nq →
      (if nq.Left = some p then nq.Right else nq.Left) = some s →
      heap[s]? = some ns → ns.Parent = some q → Chain heap q sibs r →
      Chain heap p ((s, decide (nq.Left = some s)) :: sibs) r

/-- What a returning call `buildTree(nodes)` leaves in the arena. -/
structure BuildPost (H : Bytes → Bytes) (heap : Heap) (nodes : List Nat) (heap1 : Heap)
    (root : Nat) : Prop where
  len : heap.length ≤ heap1.length
  frame : ∀ q, q < heap.length → q ∉ nodes → heap1[q]? = heap[q]?
  keep : ∀ p ∈ nodes, ∃ (nd : Node) (par : Option Nat), heap[p]? = some nd ∧
    heap1[p]? = some { nd with Parent := par }
  fresh : ∀ q (nq : Node), heap.length ≤ q → heap1[q]? = some nq → ∃ x, nq.Hash = H x
  top : ∃ rn : Node, heap1[root]? = some rn ∧ rn.Parent = none ∧
    some rn.Hash = merkleRoot H nodes.length (nodes.map (hashOf heap))
  path : ∀ (j p : Nat), nodes[j]? = some p → ∃ sibs, Chain heap1 p sibs root ∧
    sibs.map (fun sb => (hashOf heap1 sb.1, sb.2))
      = pathSpec H nodes.length (nodes.map (hashOf heap)) j

/-- The digests stored at the leaves, in leaf order. -/
def leafHashes (st : State) : List Bytes := st.tree.LeafNodes.map (hashOf st.heap)

/-- The pointer fields of a cell. -/
def links (n : Node) : Option Nat × Option Nat × Option Nat := (n.Left, n.Right, n.Parent)

/-- Two arenas holding the same cells up to the stored digests. -/
def SameLinks (heap heap1 : Heap) : Prop :=
  ∀ q : Nat, (heap1[q]?).map links = (heap[q]?).map links

/-- Every digest stored in the arena is an output of the digest function. -/
def HashesOK (H : Bytes → Bytes) (heap : Heap) : Prop :=
  ∀ (q : Nat) (nq : Node), heap[q]? = some nq → ∃ x, nq.Hash = H x

/-- The state of a tree between calls: the leaves are distinct allocated nodes, every
stored digest is an output of the digest function, and the `Parent` links lead every leaf
to the root along a path of the shape `buildTree` gives a tree of this many leaves. The
stored digests of the inner nodes need not be up to date. -/
structure WellFormed (H : Bytes → Bytes) (st : State) : Prop where
  nonempty : 1 ≤ st.tree.LeafNodes.length
  nodup : st.tree.LeafNodes.Nodup
  valid : ∀ p ∈ st.tree.LeafNodes, p < st.heap.length
  hashes : HashesOK H st.heap
  shape : ∃ root, st.tree.Root = some root ∧ ∀ (j p : Nat), st.tree.LeafNodes[j]? = some p →
    ∃ sibs, Chain st.heap p sibs root ∧
      sibs.map Prod.snd
        = (pathSpec H st.tree.LeafNodes.length (leafHashes st) j).map Prod.snd

/-- A well-formed state whose inner digests are up to date: the root digest and every
audit path are the ones computed from the current leaf digests. -/
structure Consistent (H : Bytes → Bytes) (st : State) : Prop where
  wf : WellFormed H st
  agree : ∃ (root : Nat) (rn : Node), st.tree.Root = some root ∧ st.heap[root]? = some rn ∧
    some rn.Hash = merkleRoot H st.tree.LeafNodes.length (leafHashes st) ∧
    ∀ (j p : Nat), st.tree.LeafNodes[j]? = some p → ∃ sibs, Chain st.heap p sibs root ∧
      sibs.map (fun sb => (hashOf st.heap sb.1, sb.2))
        = pathSpec H st.tree.LeafNodes.length (leafHashes st) j

/-- What `buildTree` needs of the level it is called on: distinct allocated nodes, at least
one, and a single node has no parent yet. -/
structure Ready (H : Bytes → Bytes) (heap : Heap) (nodes : List Nat) : Prop where
  nonempty : 1 ≤ nodes.length
  nodup : nodes.Nodup
  valid : ∀ p ∈ nodes, p < heap.length
  hashes : HashesOK H heap
  single : nodes.length = 1 → ∀ p ∈ nodes, ∀ n : Node, heap[p]? = some n → n.Parent = none

/-- The leaf digests after the loop of `UpdateLeaves` ran to its end: the replacements
are applied one after the other. -/
def batchHashes (H : Bytes → Bytes) : List Bytes → List Int → List Bytes → List Bytes
  | hs, [], _ => hs
  | hs, _ :: _, [] => hs
  | hs, index :: rest, d :: ds => batchHashes H (hs.set index.toNat (H d)) rest ds

/-- The states a caller can bring a tree into: `NewMerkleTree` returned it, or one of
the two update methods returned (with a digest or with an error) from a reachable state. -/
inductive Reachable (H : Bytes → Bytes) : State → Prop
  | new {fuel : Nat} {data : List Bytes} {st : State} :
      NewMerkleTree H fuel data = .ok st → Reachable H st
  | updateLeaf {fuel : Nat} {st st1 : State} {i : Int} {d : Bytes} {r : Except GoError Bytes} :
      Reachable H st → UpdateLeaf H fuel st i d = .ok (r, st1) → Reachable H st1
  | updateLeaves {fuel : Nat} {st st1 : State} {idxs : List Int} {ds : List Bytes}
      {r : Except GoError Bytes} :
      Reachable H st → UpdateLeaves H fuel st idxs ds = .ok (r, st1) → Reachable H st1

/-- A toy digest for running the definitions on concrete inputs: collision-free and of
fixed length (it codes the input as one number with the pairing function). -/
def toyHash (b : Bytes) : Bytes := [b.foldr (fun a acc => Nat.pair a acc + 1) 0]

/-- The state `NewMerkleTree` returns on the blocks `[1]`, `[2]`, `[3]` with `toyHash`. -/
def exampleState : State :=
  { heap := [⟨none, none, some 3, [3]⟩, ⟨none, none, some 3, [7]⟩, ⟨none, none, some 4, [13]⟩,
      ⟨some 0, some 1, some 5, toyHash [3, 7]⟩, ⟨some 2, some 2, some 5, toyHash [13, 13]⟩,
      ⟨some 3, some 4, none, toyHash (toyHash [3, 7] ++ toyHash [13, 13])⟩],
    tree := { Root := some 5, LeafNodes := [0, 1, 2] } }

/-- The digest stored in the parent of the leaf at a position. -/
def parentHashOfLeaf (st : State) (j : Nat) : Option Bytes :=
  match st.tree.LeafNodes[j]? with
  | none => none
  | some leaf =>
    match st.heap[leaf]? with
    | none => none
    | some n =>
      match n.Parent with
      | none => none
      | some par => (st.heap[par]?).map Node.Hash

/-- The loop of `buildTree` run `k` times in a row: the levels the recursion goes through. -/
def buildLevels (H : Bytes → Bytes) : Nat → Heap → List Nat → Except Fault (Heap × List Nat)
  | 0, heap, nodes => .ok (heap, nodes)
  | k + 1, heap, nodes =>
    match buildLevel H heap nodes with
    | .error e => .error e
    | .ok (heap1, newLevel) => buildLevels H k heap1 newLevel

/-- The calls `UpdateLeaf(leafIndices[k], newDatas[k])` for `k = 0, 1, ...` made one after
the other by a caller: the result of the last call (`last` when there is none) and the
state after it. -/
def updateSeq (H : Bytes → Bytes) (fuel : Nat) :
    Option (Except GoError Bytes) → State → List Int → List Bytes →
      Except Fault (Option (Except GoError Bytes) × State)
  | last, st, [], _ => .ok (last, st)
  | last, st, _ :: _, [] => .ok (last, st)
  | _, st, index :: rest, d :: ds =>
    match UpdateLeaf H fuel st index d with
    | .error e => .error e
    | .ok (r, st1) => updateSeq H fuel (some r) st1 rest ds

/-- The slice `s` shows the bytes `b` and has no spare capacity. -/
def FullAt (mem : Memory) (s : Slice) (b : Bytes) : Prop :=
  ∃ a : Bytes, mem[s.arr]? = some a ∧ s.off + s.cap ≤ a.length ∧ s.len = s.cap ∧
    (a.drop s.off).take s.len = b

/-- Every array of `mem` is still there, unchanged, in `mem1`. -/
def Extends (mem mem1 : Memory) : Prop :=
  ∀ (k : Nat) (a : Bytes), mem[k]? = some a → mem1[k]? = some a

/-- The memory of a caller who keeps two sibling digests, `[5]` and `[6]`, side by side in
one buffer (array 0), the leaf digest `[9]` in array 1 and a candidate root in array 2. -/
def aliasedMemory (root : Bytes) : Memory := [[5, 6], [9], root]

/-- The proof this caller builds: `LeafHash` is the whole of array 1, `Proof[0]` is
`buf[0:1]` (one byte, capacity 2) and `Proof[1]` is `buf[1:2]`, with
`IsLeft = [true, false]`. -/
def aliasedProof : Slices.MerkleProof :=
  ⟨⟨1, 0, 1, 1⟩, [⟨0, 0, 1, 2⟩, ⟨0, 1, 1, 1⟩], [true, false]⟩

/-! ## Lemmas and claims -/

theorem levelHashes_length (H : Bytes → Bytes) :
    ∀ hs : List Bytes, (levelHashes H hs).length = (hs.length + 1) / 2
  | [] => rfl
  | [_] => by simp [levelHashes]
  | _ :: _ :: rest => by
    simp only [levelHashes, List.length_cons, levelHashes_length H rest]
    omega

theorem levelHashes_getElem? (H : Bytes → Bytes) :
    ∀ (hs : List Bytes) (k : Nat) (l : Bytes), hs[2 * k]? = some l →
      (levelHashes H hs)[k]? = some (H (l ++ (hs[2 * k + 1]?).getD l))
  | [], k, l, h => by simp at h
  | [a], k, l, h => by
    cases k with
    | zero => simp at h; subst h; simp [levelHashes]
    | succ k => simp [Nat.mul_succ] at h
  | a :: b :: rest, k, l, h => by
    cases k with
    | zero => simp at h; subst h; simp [levelHashes]
    | succ k =>
      have e1 : 2 * (k + 1) = 2 * k + 1 + 1 := by omega
      have e2 : 2 * (k + 1) + 1 = 2 * k + 1 + 1 + 1 := by omega
      rw [e1] at h
      simp only [List.getElem?_cons_succ] at h
      rw [e2]
      simp only [levelHashes, List.getElem?_cons_succ]
      exact levelHashes_getElem? H rest k l h

theorem merkleRoot_fuel (H : Bytes → Bytes) :
    ∀ (f g : Nat) (hs : List Bytes), 1 ≤ hs.length → hs.length ≤ f → hs.length ≤ g →
      merkleRoot H f hs = merkleRoot H g hs
  | 0, _, hs, h1, hf, _ => by omega
  | _ + 1, 0, hs, h1, _, hg => by omega
  | f + 1, g + 1, hs, h1, hf, hg => by
    simp only [merkleRoot]
    split
    · rfl
    · have hl := levelHashes_length H hs
      exact merkleRoot_fuel H f g _ (by omega) (by omega) (by omega)

theorem pathSpec_fuel (H : Bytes → Bytes) :
    ∀ (f g : Nat) (hs : List Bytes) (j : Nat), 1 ≤ hs.length → hs.length ≤ f →
      hs.length ≤ g → pathSpec H f hs j = pathSpec H g hs j
  | 0, _, hs, _, h1, hf, _ => by omega
  | _ + 1, 0, hs, _, h1, _, hg => by omega
  | f + 1, g + 1, hs, j, h1, hf, hg => by
    simp only [pathSpec]
    split
    · rfl
    · have hl := levelHashes_length H hs
      rw [pathSpec_fuel H f g _ (j / 2) (by omega) (by omega) (by omega)]

theorem pathSpec_length_lt (H : Bytes → Bytes) :
    ∀ (f : Nat) (hs : List Bytes) (j : Nat), 1 ≤ hs.length →
      (pathSpec H f hs j).length < hs.length
  | 0, hs, _, h1 => by simpa [pathSpec] using h1
  | f + 1, hs, j, h1 => by
    simp only [pathSpec]
    split
    · simpa using h1
    · have hl := levelHashes_length H hs
      have ih := pathSpec_length_lt H f (levelHashes H hs) (j / 2) (by omega)
      simp only [List.length_cons]
      omega

/-- One step of the fold of `VerifyProof`. -/
theorem foldPath_cons (H : Bytes → Bytes) (c h : Bytes) (b : Bool) (rest : List (Bytes × Bool)) :
    foldPath H c ((h, b) :: rest) = foldPath H (if b then H (h ++ c) else H (c ++ h)) rest := by
  cases b <;> rfl

theorem foldPath_pathSpec (H : Bytes → Bytes) :
    ∀ (f : Nat) (hs : List Bytes) (j : Nat) (x : Bytes), hs.length ≤ f → hs[j]? = some x →
      some (foldPath H x (pathSpec H f hs j)) = merkleRoot H f hs
  | 0, hs, j, x, hf, hj => by
    have : hs = [] := List.eq_nil_of_length_eq_zero (by omega)
    subst this; simp at hj
  | f + 1, hs, j, x, hf, hj => by
    have hjl : j < hs.length := by
      rcases Nat.lt_or_ge j hs.length with h | h
      · exact h
      · rw [List.getElem?_eq_none h] at hj; cases hj
    simp only [pathSpec, merkleRoot]
    split
    · rename_i h1
      have : j = 0 := by omega
      subst this
      simp [foldPath, hj]
    · rename_i h1
      have hl := levelHashes_length H hs
      rw [foldPath_cons]
      apply foldPath_pathSpec H f (levelHashes H hs) (j / 2) _ (by omega)
      rcases Nat.mod_two_eq_zero_or_one j with he | ho
      · have hj2 : j = 2 * (j / 2) := by omega
        have hx : hs[2 * (j / 2)]? = some x := by rw [← hj2]; exact hj
        rw [levelHashes_getElem? H hs (j / 2) x hx]
        rw [← hj2]
        by_cases hlt : j + 1 < hs.length
        · simp [sibIdx, sibFlag, he, hlt, List.getD_eq_getElem?_getD, List.getElem?_eq_getElem hlt]
        · have hn : hs[j + 1]? = none := List.getElem?_eq_none (by omega)
          simp [sibIdx, sibFlag, he, hlt, hn, List.getD_eq_getElem?_getD, hj]
      · have hj2 : j = 2 * (j / 2) + 1 := by omega
        have hlt : 2 * (j / 2) < hs.length := by omega
        have hx : hs[2 * (j / 2)]? = some (hs[2 * (j / 2)]) := List.getElem?_eq_getElem hlt
        rw [levelHashes_getElem? H hs (j / 2) _ hx]
        rw [← hj2, hj]
        have e : j - 1 = 2 * (j / 2) := by omega
        simp [sibIdx, sibFlag, ho, e, List.getD_eq_getElem?_getD, hx]

theorem hashOf_of_get {heap : Heap} {p : Nat} {n : Node} (h : heap[p]? = some n) :
    hashOf heap p = n.Hash := by
  simp [hashOf, h]

theorem hashOf_congr {heap heap1 : Heap} {p : Nat} {n n1 : Node} (h : heap[p]? = some n)
    (h1 : heap1[p]? = some n1) (e : n1.Hash = n.Hash) : hashOf heap1 p = hashOf heap p := by
  simp [hashOf, h, h1, e]

theorem deref_of_get {heap : Heap} {p : Nat} {n : Node} (h : heap[p]? = some n) :
    deref heap p = .ok n := by
  simp [deref, h]

theorem get_of_lt {heap : Heap} {p : Nat} (h : p < heap.length) : ∃ n, heap[p]? = some n :=
  ⟨heap[p], List.getElem?_eq_getElem h⟩

theorem lt_of_get {heap : Heap} {p : Nat} {n : Node} (h : heap[p]? = some n) :
    p < heap.length := by
  rcases Nat.lt_or_ge p heap.length with h1 | h1
  · exact h1
  · rw [List.getElem?_eq_none h1] at h; cases h

theorem hashNodes_of_get (H : Bytes → Bytes) {heap : Heap} {a b : Nat} {na nb : Node}
    (ha : heap[a]? = some na) (hb : heap[b]? = some nb) :
    hashNodes H heap a b = .ok (H (hashOf heap a ++ hashOf heap b)) := by
  simp [hashNodes, deref, ha, hb, hashOf]

theorem setParent_of_get {heap : Heap} {p q : Nat} {n : Node} (h : heap[p]? = some n) :
    setParent heap p q = .ok (heap.set p { n with Parent := some q }) := by
  simp [setParent, h]

theorem buildLevel_pair (H : Bytes → Bytes) {heap heap1 heap2 heap3 : Heap} {a b : Nat}
    {rest lvl : List Nat} {h : Bytes} (hh : hashNodes H heap a b = .ok h)
    (h1 : setParent (heap ++ [⟨some a, some b, none, h⟩]) a heap.length = .ok heap1)
    (h2 : setParent heap1 b heap.length = .ok heap2)
    (h3 : buildLevel H heap2 rest = .ok (heap3, lvl)) :
    buildLevel H heap (a :: b :: rest) = .ok (heap3, heap.length :: lvl) := by
  simp only [buildLevel, hh, h1, h2, h3]

theorem buildLevel_spec (H : Bytes → Bytes) :
    ∀ (nodes : List Nat) (heap : Heap), nodes.Nodup → (∀ p ∈ nodes, p < heap.length) →
      ∃ heap1, buildLevel H heap nodes
          = .ok (heap1, List.range' heap.length ((nodes.length + 1) / 2)) ∧
        heap1.length = heap.length + (nodes.length + 1) / 2 ∧
        (∀ q, q < heap.length → q ∉ nodes → heap1[q]? = heap[q]?) ∧
        (∀ j p, nodes[j]? = some p → ∃ nd : Node, heap[p]? = some nd ∧
          heap1[p]? = some { nd with Parent := some (heap.length + j / 2) }) ∧
        (∀ k l, nodes[2 * k]? = some l →
          heap1[heap.length + k]? = some
            { Left := some l, Right := some ((nodes[2 * k + 1]?).getD l), Parent := none,
              Hash := H (hashOf heap l ++ hashOf heap ((nodes[2 * k + 1]?).getD l)) })
  | [], heap, _, _ => by
    refine ⟨heap, by simp [buildLevel], by simp, fun _ _ _ => rfl, ?_, ?_⟩
    · intro j p h; simp at h
    · intro k l h; simp at h
  | [a], heap, _, hv => by
    have ha : a < heap.length := hv a (by simp)
    obtain ⟨na, hna⟩ := get_of_lt ha
    have hne : a ≠ heap.length := by omega
    let newNode : Node := ⟨some a, some a, none, H (hashOf heap a ++ hashOf heap a)⟩
    refine ⟨(heap ++ [newNode]).set a { na with Parent := some heap.length },
      ?_, by simp, ?_, ?_, ?_⟩
    · have h1 : (heap ++ [newNode])[a]? = some na := by
        rw [List.getElem?_append_left ha]; exact hna
      simp only [buildLevel, hashNodes_of_get H hna hna, setParent_of_get h1]
      simp
    · intro q hq hqn
      have : a ≠ q := by intro e; subst e; simp at hqn
      rw [List.getElem?_set_ne this, List.getElem?_append_left hq]
    · intro j p hj
      cases j with
      | zero =>
        simp at hj; subst hj
        refine ⟨na, hna, ?_⟩
        rw [List.getElem?_set_self (by simp; omega)]
        simp
      | succ j => simp at hj
    · intro k l hk
      cases k with
      | zero =>
        simp at hk; subst hk
        rw [Nat.add_zero, List.getElem?_set_ne hne]
        simp [newNode]
      | succ k => simp [Nat.mul_succ] at hk
  | a :: b :: rest, heap, hnd, hv => by
    have ha : a < heap.length := hv a (by simp)
    have hb : b < heap.length := hv b (by simp)
    obtain ⟨na, hna⟩ := get_of_lt ha
    obtain ⟨nb, hnb⟩ := get_of_lt hb
    have hnd1 := List.nodup_cons.mp hnd
    have hnd2 := List.nodup_cons.mp hnd1.2
    have hab : a ≠ b := by intro e; subst e; exact hnd1.1 (by simp)
    have har : a ∉ rest := fun h => hnd1.1 (List.mem_cons_of_mem _ h)
    have hbr : b ∉ rest := hnd2.1
    let newNode : Node := ⟨some a, some b, none, H (hashOf heap a ++ hashOf heap b)⟩
    let heap1 : Heap := (heap ++ [newNode]).set a { na with Parent := some heap.length }
    let heap2 : Heap := heap1.set b { nb with Parent := some heap.length }
    have h1 : (heap ++ [newNode])[a]? = some na := by
      rw [List.getElem?_append_left ha]; exact hna
    have h2 : heap1[b]? = some nb := by
      show ((heap ++ [newNode]).set a _)[b]? = _
      rw [List.getElem?_set_ne hab, List.getElem?_append_left hb]; exact hnb
    have hlen2 : heap2.length = heap.length + 1 := by simp [heap2, heap1]
    have hget2 : ∀ q, q ≠ a → q ≠ b → q < heap.length → heap2[q]? = heap[q]? := by
      intro q hqa hqb hq
      show ((((heap ++ [newNode]).set a _)).set b _)[q]? = _
      rw [List.getElem?_set_ne (Ne.symm hqb), List.getElem?_set_ne (Ne.symm hqa),
        List.getElem?_append_left hq]
    have hget2a : heap2[a]? = some { na with Parent := some heap.length } := by
      show ((((heap ++ [newNode]).set a _)).set b _)[a]? = _
      rw [List.getElem?_set_ne (Ne.symm hab), List.getElem?_set_self (by simp; omega)]
    have hget2b : heap2[b]? = some { nb with Parent := some heap.length } := by
      show ((((heap ++ [newNode]).set a _)).set b _)[b]? = _
      rw [List.getElem?_set_self (by simp; omega)]
    have hget2n : heap2[heap.length]? = some newNode := by
      show ((((heap ++ [newNode]).set a _)).set b _)[heap.length]? = _
      rw [List.getElem?_set_ne (by omega), List.getElem?_set_ne (by omega)]
      simp
    have hv2 : ∀ p ∈ rest, p < heap2.length := by
      intro p hp
      have := hv p (by simp [hp])
      omega
    obtain ⟨heap3, hbl, hlen3, hA, hB, hC⟩ := buildLevel_spec H rest heap2 hnd2.2 hv2
    have hhash : ∀ q, q < heap.length → q ∈ rest → hashOf heap2 q = hashOf heap q := by
      intro q hq hqr
      have hqa : q ≠ a := fun e => har (e ▸ hqr)
      have hqb : q ≠ b := fun e => hbr (e ▸ hqr)
      simp [hashOf, hget2 q hqa hqb hq]
    refine ⟨heap3, ?_, ?_, ?_, ?_, ?_⟩
    · have e : (List.length (a :: b :: rest) + 1) / 2 = (rest.length + 1) / 2 + 1 := by
        simp only [List.length_cons]; omega
      rw [e, List.range'_succ, ← hlen2]
      exact buildLevel_pair H (hashNodes_of_get H hna hnb) (setParent_of_get h1)
        (setParent_of_get h2) hbl
    · rw [hlen3, hlen2]; simp only [List.length_cons]; omega
    · intro q hq hqn
      have hqa : q ≠ a := by intro e; subst e; simp at hqn
      have hqb : q ≠ b := by intro e; subst e; simp at hqn
      have hqr : q ∉ rest := by intro h; exact hqn (by simp [h])
      rw [hA q (by omega) hqr, hget2 q hqa hqb hq]
    · intro j p hj
      match j, hj with
      | 0, hj =>
        simp at hj; subst hj
        exact ⟨na, hna, by rw [hA a (by omega) har, hget2a]; simp⟩
      | 1, hj =>
        simp at hj; subst hj
        exact ⟨nb, hnb, by rw [hA b (by omega) hbr, hget2b]; simp⟩
      | j + 2, hj =>
        simp only [List.getElem?_cons_succ] at hj
        have hpr : p ∈ rest := List.mem_iff_getElem?.mpr ⟨j, hj⟩
        have hp : p < heap.length := hv p (by simp [hpr])
        obtain ⟨nd, hnd, hnd3⟩ := hB j p hj
        have hpa : p ≠ a := fun e => har (e ▸ hpr)
        have hpb : p ≠ b := fun e => hbr (e ▸ hpr)
        rw [hget2 p hpa hpb hp] at hnd
        refine ⟨nd, hnd, ?_⟩
        rw [hnd3, hlen2]
        have : heap.length + 1 + j / 2 = heap.length + (j + 2) / 2 := by omega
        rw [this]
    · intro k l hk
      cases k with
      | zero =>
        simp at hk; subst hk
        have hnr : heap.length ∉ rest := by
          intro h
          have := hv heap.length (by simp [h])
          omega
        rw [Nat.add_zero, hA heap.length (by omega) hnr, hget2n]
        simp [newNode]
      | succ k =>
        have e1 : 2 * (k + 1) = 2 * k + 1 + 1 := by omega
        have e2 : 2 * (k + 1) + 1 = 2 * k + 1 + 1 + 1 := by omega
        rw [e1] at hk
        simp only [List.getElem?_cons_succ] at hk
        have hlr : l ∈ rest := List.mem_iff_getElem?.mpr ⟨_, hk⟩
        have hl : l < heap.length := hv l (by simp [hlr])
        have h3 := hC k l hk
        rw [hlen2] at h3
        have e3 : heap.length + (k + 1) = heap.length + 1 + k := by omega
        rw [e3, h3, e2]
        simp only [List.getElem?_cons_succ]
        have hr : hashOf heap2 ((rest[2 * k + 1]?).getD l) = hashOf heap ((rest[2 * k + 1]?).getD l) := by
          cases hrk : rest[2 * k + 1]? with
          | none => simpa using hhash l hl hlr
          | some r =>
            have hrr : r ∈ rest := List.mem_iff_getElem?.mpr ⟨_, hrk⟩
            simpa using hhash r (hv r (by simp [hrr])) hrr
        rw [hhash l hl hlr, hr]

theorem level_hashes_eq (H : Bytes → Bytes) (heap heap1 : Heap) (nodes : List Nat)
    (hC : ∀ k l, nodes[2 * k]? = some l →
      heap1[heap.length + k]? = some
        { Left := some l, Right := some ((nodes[2 * k + 1]?).getD l), Parent := none,
          Hash := H (hashOf heap l ++ hashOf heap ((nodes[2 * k + 1]?).getD l)) }) :
    (List.range' heap.length ((nodes.length + 1) / 2)).map (hashOf heap1)
      = levelHashes H (nodes.map (hashOf heap)) := by
  apply List.ext_getElem?
  intro k
  by_cases hk : k < (nodes.length + 1) / 2
  · have h2k : 2 * k < nodes.length := by omega
    have hl : nodes[2 * k]? = some nodes[2 * k] := List.getElem?_eq_getElem h2k
    have hm : (nodes.map (hashOf heap))[2 * k]? = some (hashOf heap nodes[2 * k]) := by
      rw [List.getElem?_map, hl]; rfl
    rw [levelHashes_getElem? H _ k _ hm, List.getElem?_map, List.getElem?_range' _ _ hk]
    simp only [Option.map_some', Nat.one_mul, List.getElem?_map]
    rw [hashOf_of_get (hC k _ hl)]
    cases nodes[2 * k + 1]? <;> simp
  · rw [List.getElem?_eq_none (by simp; omega), List.getElem?_eq_none]
    rw [levelHashes_length]; simp; omega

theorem buildTree_spec (H : Bytes → Bytes) :
    ∀ (fuel : Nat) (heap : Heap) (nodes : List Nat),
      1 ≤ nodes.length → nodes.length ≤ fuel → nodes.Nodup →
      (∀ p ∈ nodes, p < heap.length) →
      (nodes.length = 1 → ∀ p ∈ nodes, ∀ n : Node, heap[p]? = some n → n.Parent = none) →
      ∃ (heap1 : Heap) (root : Nat) (rn : Node),
        buildTree H fuel heap nodes = .ok (heap1, root) ∧
        heap.length ≤ heap1.length ∧
        (∀ q, q < heap.length → q ∉ nodes → heap1[q]? = heap[q]?) ∧
        (∀ p ∈ nodes, ∃ (nd : Node) (par : Option Nat), heap[p]? = some nd ∧
          heap1[p]? = some { nd with Parent := par }) ∧
        (∀ q (nq : Node), heap.length ≤ q → heap1[q]? = some nq → ∃ x, nq.Hash = H x) ∧
        heap1[root]? = some rn ∧ rn.Parent = none ∧
        some rn.Hash = merkleRoot H fuel (nodes.map (hashOf heap)) ∧
        (∀ j p, nodes[j]? = some p → ∃ sibs, Chain heap1 p sibs root ∧
          sibs.map (fun sb => (hashOf heap1 sb.1, sb.2))
            = pathSpec H fuel (nodes.map (hashOf heap)) j)
  | 0, _, _, h1, hf, _, _, _ => by omega
  | fuel + 1, heap, nodes, h1, hf, hnd, hv, hp1 => by
    by_cases hone : nodes.length = 1
    · -- a single node is the root
      obtain ⟨r, rfl⟩ := List.length_eq_one.mp hone
      obtain ⟨rn, hrn⟩ := get_of_lt (hv r (by simp))
      refine ⟨heap, r, rn, by simp [buildTree], Nat.le_refl _, fun _ _ _ => rfl, ?_, ?_, hrn,
        hp1 hone r (by simp) rn hrn, ?_, ?_⟩
      · intro p hp
        obtain ⟨nd, hndp⟩ := get_of_lt (hv p hp)
        exact ⟨nd, nd.Parent, hndp, hndp⟩
      · intro q nq hq hget
        have := lt_of_get hget
        omega
      · simp [merkleRoot, hashOf_of_get hrn]
      · intro j p hj
        cases j with
        | zero =>
          simp at hj; subst hj
          exact ⟨[], Chain.root hrn (hp1 hone _ (by simp) rn hrn), by simp [pathSpec]⟩
        | succ j => simp at hj
    · -- build the next level and recurse
      obtain ⟨heap1, hbl, hlen1, hA, hB, hC⟩ := buildLevel_spec H nodes heap hnd hv
      have hm1 : 1 ≤ (nodes.length + 1) / 2 := by omega
      have hmf : (nodes.length + 1) / 2 ≤ fuel := by omega
      have hlvl := level_hashes_eq H heap heap1 nodes hC
      have hmem : ∀ q, q ∈ List.range' heap.length ((nodes.length + 1) / 2) ↔
          heap.length ≤ q ∧ q < heap1.length := by
        intro q
        rw [List.mem_range', hlen1]
        constructor
        · rintro ⟨i, hi, rfl⟩; omega
        · rintro ⟨h1, h2⟩; exact ⟨q - heap.length, by omega, by omega⟩
      have hnew : ∀ k, k < (nodes.length + 1) / 2 → ∃ l, nodes[2 * k]? = some l ∧
          heap1[heap.length + k]? = some
            { Left := some l, Right := some ((nodes[2 * k + 1]?).getD l), Parent := none,
              Hash := H (hashOf heap l ++ hashOf heap ((nodes[2 * k + 1]?).getD l)) } := by
        intro k hk
        have h2k : 2 * k < nodes.length := by omega
        exact ⟨nodes[2 * k], List.getElem?_eq_getElem h2k, hC k _ (List.getElem?_eq_getElem h2k)⟩
      obtain ⟨heap2, root, rn, hbt, hlen2, hA2, hB2, hK2, hroot, hrpar, hrhash, hP2⟩ :=
        buildTree_spec H fuel heap1 (List.range' heap.length ((nodes.length + 1) / 2))
          (by simpa using hm1) (by simpa using hmf) (List.nodup_range' _ _)
          (fun p hp => ((hmem p).mp hp).2)
          (by
            intro _ p hp n hn
            obtain ⟨hp1, hp2⟩ := (hmem p).mp hp
            obtain ⟨l, _, hget⟩ := hnew (p - heap.length) (by omega)
            have e : heap.length + (p - heap.length) = p := by omega
            rw [e, hn] at hget
            cases hget; rfl)
      -- every node of the level keeps its digest and points to its new parent
      have hnode : ∀ (j p : Nat), nodes[j]? = some p → ∃ nd : Node, heap[p]? = some nd ∧
          heap2[p]? = some { nd with Parent := some (heap.length + j / 2) } := by
        intro j p hj
        obtain ⟨nd, h0, h1⟩ := hB j p hj
        have hpm : p ∈ nodes := List.mem_iff_getElem?.mpr ⟨j, hj⟩
        have hpl := hv p hpm
        refine ⟨nd, h0, ?_⟩
        rw [hA2 p (by omega) (fun hin => by have := ((hmem p).mp hin).1; omega), h1]
      have hhash2 : ∀ (j p : Nat), nodes[j]? = some p → hashOf heap2 p = hashOf heap p := by
        intro j p hj
        obtain ⟨nd, h0, h2⟩ := hnode j p hj
        exact hashOf_congr h0 h2 rfl
      -- every new parent keeps its children
      have hpar : ∀ k, k < (nodes.length + 1) / 2 → ∃ (l : Nat) (nq : Node),
          nodes[2 * k]? = some l ∧ heap2[heap.length + k]? = some nq ∧
          nq.Left = some l ∧ nq.Right = some ((nodes[2 * k + 1]?).getD l) ∧
          nq.Hash = H (hashOf heap l ++ hashOf heap ((nodes[2 * k + 1]?).getD l)) := by
        intro k hk
        obtain ⟨l, hl, hget⟩ := hnew k hk
        obtain ⟨nd, par, h1, h2⟩ := hB2 (heap.length + k) ((hmem _).mpr ⟨by omega, by omega⟩)
        rw [hget] at h1
        cases h1
        exact ⟨l, _, hl, h2, rfl, rfl, rfl⟩
      refine ⟨heap2, root, rn, ?_, by omega, ?_, ?_, ?_, hroot, hrpar, ?_, ?_⟩
      · simp only [buildTree, hone, if_false, hbl]
        exact hbt
      · intro q hq hqn
        rw [hA2 q (by omega) (fun hin => by have := ((hmem q).mp hin).1; omega), hA q hq hqn]
      · intro p hp
        obtain ⟨j, hj⟩ := List.mem_iff_getElem?.mp hp
        obtain ⟨nd, h0, h2⟩ := hnode j p hj
        exact ⟨nd, _, h0, h2⟩
      · intro q nq hq hget
        by_cases hq1 : heap1.length ≤ q
        · exact hK2 q nq hq1 hget
        · obtain ⟨l, nq1, _, hg, _, _, hh⟩ := hpar (q - heap.length) (by omega)
          have e : heap.length + (q - heap.length) = q := by omega
          rw [e, hget] at hg
          cases hg
          exact ⟨_, hh⟩
      · rw [hrhash, hlvl]
        simp [merkleRoot, hone]
      · intro j p hj
        have hjl : j < nodes.length := (List.getElem?_eq_some.mp hj).1
        have hk : j / 2 < (nodes.length + 1) / 2 := by omega
        obtain ⟨l, nq, hl, hq, hqL, hqR, _⟩ := hpar (j / 2) hk
        obtain ⟨nd, _, hp2⟩ := hnode j p hj
        obtain ⟨sibs, hch, hmap⟩ := hP2 (j / 2) (heap.length + j / 2)
          (by rw [List.getElem?_range' _ _ hk]; simp)
        rw [hlvl] at hmap
        have hinj : ∀ (i i1 x : Nat), nodes[i]? = some x → nodes[i1]? = some x → i = i1 := by
          intro i i' x hi hi'
          exact List.getElem?_inj (List.getElem?_eq_some.mp hi).1 hnd (hi.trans hi'.symm)
        -- the sibling of position `j`
        have hsl : sibIdx nodes.length j < nodes.length := by
          unfold sibIdx; split <;> [omega; (split <;> omega)]
        have hs : nodes[sibIdx nodes.length j]? = some nodes[sibIdx nodes.length j] :=
          List.getElem?_eq_getElem hsl
        obtain ⟨ns, _, hs2⟩ := hnode _ _ hs
        have hs2k : sibIdx nodes.length j / 2 = j / 2 := by
          unfold sibIdx; split <;> [omega; (split <;> omega)]
        rw [hs2k] at hs2
        have hsib : (if nq.Left = some p then nq.Right else nq.Left)
            = some nodes[sibIdx nodes.length j] ∧
            decide (nq.Left = some nodes[sibIdx nodes.length j]) = sibFlag nodes.length j := by
          rcases Nat.mod_two_eq_zero_or_one j with he | ho
          · have hj2 : 2 * (j / 2) = j := by omega
            rw [hj2] at hl hqR
            have hlp : l = p := by rw [hj] at hl; cases hl; rfl
            subst hlp
            by_cases hlt : j + 1 < nodes.length
            · have hi : sibIdx nodes.length j = j + 1 := by simp [sibIdx, he, hlt]
              have hj1 : nodes[j + 1]? = some nodes[j + 1] := List.getElem?_eq_getElem hlt
              have hne : nodes[j + 1] ≠ l := by
                intro e
                have := hinj (j + 1) j l (e ▸ hj1) hj
                omega
              simp only [hi, hqL, hqR, hj1, if_true, Option.getD_some, sibFlag, he]
              simp [hlt, Ne.symm hne]
            · have hi : sibIdx nodes.length j = j := by simp [sibIdx, he, hlt]
              have hn : nodes[j + 1]? = none := List.getElem?_eq_none (by omega)
              have hjj : nodes[j] = l := by
                have := List.getElem?_eq_getElem hjl
                rw [hj] at this; cases this; rfl
              simp only [hi, hqL, hqR, hn, if_true, Option.getD_none, sibFlag, he, hjj]
              simp [hlt]
          · have hj2 : 2 * (j / 2) + 1 = j := by omega
            have hi : sibIdx nodes.length j = 2 * (j / 2) := by
              simp [sibIdx, ho]; omega
            have hll : nodes[2 * (j / 2)] = l := by
              have := List.getElem?_eq_getElem (show 2 * (j / 2) < nodes.length by omega)
              rw [hl] at this; cases this; rfl
            have hne : l ≠ p := by
              intro e
              have := hinj (2 * (j / 2)) j p (e ▸ hl) hj
              omega
            simp only [hi, hqL, hll, sibFlag, ho]
            simp [hne]
        refine ⟨(nodes[sibIdx nodes.length j], decide (nq.Left = some nodes[sibIdx nodes.length j]))
          :: sibs, Chain.step hp2 rfl hq hsib.1 hs2 rfl hch, ?_⟩
        simp only [List.map_cons, pathSpec, List.length_map, hone, if_false, hmap, hsib.2]
        rw [hhash2 _ _ hs]
        simp [List.getD_eq_getElem?_getD, hs]

theorem isLeftNode_of_get {heap : Heap} {p q : Nat} {n nq : Node} (hp : heap[p]? = some n)
    (hpar : n.Parent = some q) (hq : heap[q]? = some nq) :
    isLeftNode heap p = .ok (decide (nq.Left = some p)) := by
  simp [isLeftNode, deref, hp, hpar, hq]

theorem getSibling_of_get {heap : Heap} {p q : Nat} {n nq : Node} (hp : heap[p]? = some n)
    (hpar : n.Parent = some q) (hq : heap[q]? = some nq) :
    getSibling heap p = .ok (if nq.Left = some p then nq.Right else nq.Left) := by
  simp only [getSibling, isLeftNode_of_get hp hpar hq, deref, hp, hpar, hq]
  by_cases h : nq.Left = some p <;> simp [h]

theorem proofLoop_of_chain {heap : Heap} {p r : Nat} {sibs : List (Nat × Bool)}
    (h : Chain heap p sibs r) :
    ∀ (fuel : Nat) (proof : MerkleProof), sibs.length < fuel →
      proofLoop fuel heap p proof = .ok (.ok
        { LeafHash := proof.LeafHash,
          Proof := proof.Proof ++ sibs.map (fun sb => hashOf heap sb.1),
          IsLeft := proof.IsLeft ++ sibs.map (fun sb => sb.2) }) := by
  induction h with
  | root hp hpar =>
    intro fuel proof hf
    obtain ⟨f, rfl⟩ : ∃ f, fuel = f + 1 := ⟨fuel - 1, by omega⟩
    simp [proofLoop, deref, hp, hpar]
  | step hp hpar hq hsib hs hspar _ ih =>
    intro fuel proof hf
    obtain ⟨f, rfl⟩ : ∃ f, fuel = f + 1 := ⟨fuel - 1, by omega⟩
    simp only [List.length_cons] at hf
    simp only [proofLoop, deref_of_get hp, hpar, getSibling_of_get hp hpar hq, hsib,
      deref_of_get hs, isLeftNode_of_get hs hspar hq]
    rw [ih f _ (by omega)]
    simp [hashOf_of_get hs]

theorem Extends.self (mem : Memory) : Extends mem mem := fun _ _ h => h

theorem Extends.chain {m1 m2 m3 : Memory} (h1 : Extends m1 m2) (h2 : Extends m2 m3) :
    Extends m1 m3 := fun k a h => h2 k a (h1 k a h)

theorem Extends.of_append (mem : Memory) (extra : Memory) : Extends mem (mem ++ extra) := by
  intro k a h
  have hk : k < mem.length := (List.getElem?_eq_some.mp h).1
  rw [List.getElem?_append_left hk]
  exact h

theorem FullAt.extend {mem mem1 : Memory} {s : Slice} {b : Bytes} (h : FullAt mem s b)
    (e : Extends mem mem1) : FullAt mem1 s b := by
  obtain ⟨a, ha, h1, h2, h3⟩ := h
  exact ⟨a, e _ _ ha, h1, h2, h3⟩

theorem FullAt.length_eq {mem : Memory} {s : Slice} {b : Bytes} (h : FullAt mem s b) :
    b.length = s.len := by
  obtain ⟨a, _, h1, h2, h3⟩ := h
  rw [← h3, List.length_take, List.length_drop]
  omega

theorem readSlice_full {mem : Memory} {s : Slice} {b : Bytes} (h : FullAt mem s b) :
    readSlice mem s = .ok b := by
  obtain ⟨a, ha, h1, h2, h3⟩ := h
  simp only [readSlice, ha]
  rw [if_pos ⟨h1, by omega⟩, h3]

theorem readSlice_extend {mem mem1 : Memory} {s : Slice} {b : Bytes}
    (h : readSlice mem s = .ok b) (e : Extends mem mem1) : readSlice mem1 s = .ok b := by
  simp only [readSlice] at h ⊢
  cases ha : mem[s.arr]? with
  | none => simp [ha] at h
  | some a =>
    rw [e _ _ ha]
    simpa [ha] using h

theorem fullSlice_fullAt (mem : Memory) (k : Nat) (b : Bytes) (h : mem[k]? = some b) :
    FullAt mem (fullSlice k b) b :=
  ⟨b, h, by simp [fullSlice], rfl, by simp [fullSlice]⟩

/-- With no spare capacity in `s`, `append(s, t...)` writes into no array in use. -/
theorem goAppend_full {mem : Memory} {s t : Slice} {a b : Bytes} (hs : FullAt mem s a)
    (ht : FullAt mem t b) :
    ∃ c mem1, goAppend mem s t = .ok (c, mem1) ∧ Extends mem mem1 ∧
      readSlice mem1 c = .ok (a ++ b) := by
  have hla := hs.length_eq
  have hlb := ht.length_eq
  obtain ⟨array, harr, h1, h2, h3⟩ := hs
  by_cases hroom : s.len + t.len ≤ s.cap
  · have ht0 : t.len = 0 := by omega
    have hb : b = [] := List.eq_nil_of_length_eq_zero (by omega)
    subst hb
    have hsame : array.take (s.off + s.len) ++ ([] : Bytes) ++ array.drop (s.off + s.len + t.len)
        = array := by
      rw [ht0]; simp
    refine ⟨{ s with len := s.len + t.len }, mem.set s.arr array, ?_, ?_, ?_⟩
    · simp only [goAppend, readSlice_full ⟨array, harr, h1, h2, h3⟩, readSlice_full ht, hroom,
        if_true, harr, hsame]
    · intro k x hk
      rw [List.getElem?_set]
      split
      · rename_i e
        subst e
        rw [if_pos (List.getElem?_eq_some.mp hk).1, ← harr, hk]
      · exact hk
    · have hget : (mem.set s.arr array)[s.arr]? = some array :=
        List.getElem?_set_self (List.getElem?_eq_some.mp harr).1
      simp only [readSlice, hget]
      rw [if_pos ⟨h1, by show s.len + t.len ≤ s.cap; omega⟩]
      simp only [ht0, Nat.add_zero, h3, List.append_nil]
  · refine ⟨⟨mem.length, 0, (a ++ b).length, (a ++ b).length⟩, mem ++ [a ++ b], ?_,
      Extends.of_append mem _, ?_⟩
    · simp only [goAppend, readSlice_full ⟨array, harr, h1, h2, h3⟩, readSlice_full ht, hroom,
        if_false]
    · simp [readSlice]

theorem hashNodes_full (H : Bytes → Bytes) {mem : Memory} {l r : Slice} {a b : Bytes}
    (hl : FullAt mem l a) (hr : FullAt mem r b) :
    ∃ c mem1, Slices.hashNodes H mem l r = .ok (c, mem1) ∧ Extends mem mem1 ∧
      FullAt mem1 c (H (a ++ b)) := by
  obtain ⟨comb, mem1, hap, hext, hread⟩ := goAppend_full hl hr
  refine ⟨⟨mem1.length, 0, (H (a ++ b)).length, (H (a ++ b)).length⟩, mem1 ++ [H (a ++ b)],
    ?_, hext.chain (Extends.of_append mem1 _), ?_⟩
  · simp only [Slices.hashNodes, hap, hread]
  · exact ⟨H (a ++ b), by simp, by simp, rfl, by simp⟩

/-- On slices without spare capacity the loop of `VerifyProof` computes the fold of the
bytes they show, and writes into no array in use. -/
theorem verifyLoop_full (H : Bytes → Bytes) :
    ∀ (path : List (Bytes × Bool)) (slices : List Slice) (pre : List Bool) (mem : Memory)
      (current : Slice) (x : Bytes),
      List.Forall₂ (FullAt mem) slices (path.map (fun sb => sb.1)) → FullAt mem current x →
      ∃ c mem1, Slices.verifyLoop H (pre ++ path.map (fun sb => sb.2)) mem slices pre.length
          current = .ok (c, mem1) ∧ Extends mem mem1 ∧ FullAt mem1 c (foldPath H x path)
  | [], slices, pre, mem, current, x, hall, hc => by
    cases hall
    exact ⟨current, mem, by simp [Slices.verifyLoop], Extends.self mem, by simpa [foldPath] using hc⟩
  | (hash, b) :: rest, slices, pre, mem, current, x, hall, hc => by
    cases hall with
    | cons hhead htail =>
      rename_i s slices1
      have hget : (pre ++ ((hash, b) :: rest).map (fun sb => sb.2))[pre.length]? = some b := by
        rw [List.getElem?_append_right (Nat.le_refl _)]; simp
      have hassoc : pre ++ ((hash, b) :: rest).map (fun sb => sb.2)
          = (pre ++ [b]) ++ rest.map (fun sb => sb.2) := by simp
      cases b
      · obtain ⟨c1, mem1, hh, hext, hfull⟩ := hashNodes_full H hc hhead
        obtain ⟨c, mem2, hl, hext2, hres⟩ := verifyLoop_full H rest slices1 (pre ++ [false]) mem1
          c1 (H (x ++ hash))
          (htail.imp (fun _ _ h => h.extend hext)) hfull
        refine ⟨c, mem2, ?_, hext.chain hext2, by simpa [foldPath] using hres⟩
        simp only [Slices.verifyLoop, hget, hh]
        rw [hassoc]
        simpa using hl
      · obtain ⟨c1, mem1, hh, hext, hfull⟩ := hashNodes_full H hhead hc
        obtain ⟨c, mem2, hl, hext2, hres⟩ := verifyLoop_full H rest slices1 (pre ++ [true]) mem1
          c1 (H (hash ++ x))
          (htail.imp (fun _ _ h => h.extend hext)) hfull
        refine ⟨c, mem2, ?_, hext.chain hext2, by simpa [foldPath] using hres⟩
        simp only [Slices.verifyLoop, hget, hh]
        rw [hassoc]
        simpa using hl

/-- On a proof whose slices have no spare capacity (they may overlap), `VerifyProof` is the
fold of the bytes the slices show, compared with the bytes of `rootHash`. -/
theorem VerifyProof_full (H : Bytes → Bytes) (mem : Memory) (leaf rootSlice : Slice)
    (slices : List Slice) (x r : Bytes) (path : List (Bytes × Bool))
    (hall : List.Forall₂ (FullAt mem) slices (path.map (fun sb => sb.1)))
    (hleaf : FullAt mem leaf x) (hroot : readSlice mem rootSlice = .ok r) :
    ∃ mem1, Slices.VerifyProof H mem ⟨leaf, slices, path.map (fun sb => sb.2)⟩ rootSlice
      = .ok (decide (foldPath H x path = r), mem1) ∧ Extends mem mem1 := by
  obtain ⟨c, mem1, hl, hext, hres⟩ := verifyLoop_full H path slices [] mem leaf x hall hleaf
  simp only [List.nil_append, List.length_nil] at hl
  exact ⟨mem1, by simp only [Slices.VerifyProof, hl, readSlice_full hres,
    readSlice_extend hroot hext], hext⟩

theorem fullSlices_fullAt :
    ∀ (bs : List Bytes) (pre : Memory),
      List.Forall₂ (FullAt (pre ++ bs)) (fullSlices pre.length bs) bs
  | [], _ => List.Forall₂.nil
  | b :: rest, pre => by
    have ih := fullSlices_fullAt rest (pre ++ [b])
    simp only [List.append_assoc, List.singleton_append, List.length_append,
      List.length_singleton] at ih
    exact List.Forall₂.cons
      (fullSlice_fullAt _ _ _ (by rw [List.getElem?_append_right (Nat.le_refl _)]; simp)) ih

theorem VerifyProof_path (H : Bytes → Bytes) (x : Bytes) (path : List (Bytes × Bool))
    (root : Bytes) :
    VerifyProof H ⟨x, path.map (fun sb => sb.1), path.map (fun sb => sb.2)⟩ root
      = .ok (decide (foldPath H x path = root)) := by
  have hall : List.Forall₂ (FullAt (x :: root :: path.map (fun sb => sb.1)))
      (fullSlices 2 (path.map (fun sb => sb.1))) (path.map (fun sb => sb.1)) := by
    have h := fullSlices_fullAt (path.map (fun sb => sb.1)) [x, root]
    simpa using h
  have h0 : FullAt (x :: root :: path.map (fun sb => sb.1)) (fullSlice 0 x) x :=
    fullSlice_fullAt _ _ _ (by simp)
  have h1 : FullAt (x :: root :: path.map (fun sb => sb.1)) (fullSlice 1 root) root :=
    fullSlice_fullAt _ _ _ (by simp)
  obtain ⟨mem1, hv, _⟩ := VerifyProof_full H (x :: root :: path.map (fun sb => sb.1))
    (fullSlice 0 x) (fullSlice 1 root) (fullSlices 2 (path.map (fun sb => sb.1))) x root path
    hall h0 (readSlice_full h1)
  simp only [VerifyProof, hv]

/-- Two runs of the loop of `VerifyProof` on slices without spare capacity that show the
same bytes, in two memories, end alike: with the same fault, or with slices that show the
same bytes. -/
theorem verifyLoop_same (H : Bytes → Bytes) (isLeft : List Bool) :
    ∀ (vals : List Bytes) (ss1 ss2 : List Slice) (i : Nat) (mem1 mem2 : Memory)
      (c1 c2 : Slice) (x : Bytes),
      List.Forall₂ (FullAt mem1) ss1 vals → List.Forall₂ (FullAt mem2) ss2 vals →
      FullAt mem1 c1 x → FullAt mem2 c2 x →
      (∃ e, Slices.verifyLoop H isLeft mem1 ss1 i c1 = .error e ∧
        Slices.verifyLoop H isLeft mem2 ss2 i c2 = .error e) ∨
      (∃ r1 m1 r2 m2 y, Slices.verifyLoop H isLeft mem1 ss1 i c1 = .ok (r1, m1) ∧
        Slices.verifyLoop H isLeft mem2 ss2 i c2 = .ok (r2, m2) ∧
        FullAt m1 r1 y ∧ FullAt m2 r2 y ∧ Extends mem1 m1 ∧ Extends mem2 m2)
  | [], ss1, ss2, i, mem1, mem2, c1, c2, x, h1, h2, hc1, hc2 => by
    cases h1
    cases h2
    exact Or.inr ⟨c1, mem1, c2, mem2, x, by simp [Slices.verifyLoop],
      by simp [Slices.verifyLoop], hc1, hc2, Extends.self _, Extends.self _⟩
  | v :: vals, ss1, ss2, i, mem1, mem2, c1, c2, x, h1, h2, hc1, hc2 => by
    cases h1 with
    | cons hs1 ht1 =>
      cases h2 with
      | cons hs2 ht2 =>
        rename_i s1 rest1 s2 rest2
        cases hi : isLeft[i]? with
        | none => exact Or.inl ⟨.indexOutOfRange, by simp [Slices.verifyLoop, hi],
            by simp [Slices.verifyLoop, hi]⟩
        | some b =>
          cases b
          · obtain ⟨d1, n1, hh1, he1, hf1⟩ := hashNodes_full H hc1 hs1
            obtain ⟨d2, n2, hh2, he2, hf2⟩ := hashNodes_full H hc2 hs2
            rcases verifyLoop_same H isLeft vals rest1 rest2 (i + 1) n1 n2 d1 d2 _
              (ht1.imp (fun _ _ h => h.extend he1)) (ht2.imp (fun _ _ h => h.extend he2))
              hf1 hf2 with ⟨e, ha, hb⟩ | ⟨r1, m1, r2, m2, y, ha, hb, hy1, hy2, hx1, hx2⟩
            · exact Or.inl ⟨e, by simp only [Slices.verifyLoop, hi, hh1]; exact ha,
                by simp only [Slices.verifyLoop, hi, hh2]; exact hb⟩
            · exact Or.inr ⟨r1, m1, r2, m2, y,
                by simp only [Slices.verifyLoop, hi, hh1]; exact ha,
                by simp only [Slices.verifyLoop, hi, hh2]; exact hb,
                hy1, hy2, he1.chain hx1, he2.chain hx2⟩
          · obtain ⟨d1, n1, hh1, he1, hf1⟩ := hashNodes_full H hs1 hc1
            obtain ⟨d2, n2, hh2, he2, hf2⟩ := hashNodes_full H hs2 hc2
            rcases verifyLoop_same H isLeft vals rest1 rest2 (i + 1) n1 n2 d1 d2 _
              (ht1.imp (fun _ _ h => h.extend he1)) (ht2.imp (fun _ _ h => h.extend he2))
              hf1 hf2 with ⟨e, ha, hb⟩ | ⟨r1, m1, r2, m2, y, ha, hb, hy1, hy2, hx1, hx2⟩
            · exact Or.inl ⟨e, by simp only [Slices.verifyLoop, hi, hh1]; exact ha,
                by simp only [Slices.verifyLoop, hi, hh2]; exact hb⟩
            · exact Or.inr ⟨r1, m1, r2, m2, y,
                by simp only [Slices.verifyLoop, hi, hh1]; exact ha,
                by simp only [Slices.verifyLoop, hi, hh2]; exact hb,
                hy1, hy2, he1.chain hx1, he2.chain hx2⟩

/-- The function `VerifyProof` on byte strings is the function on slices for every proof
and root held in slices without spare capacity, wherever they lie in memory and however
they overlap: the answers (or faults) are the same. -/
theorem VerifyProof_any_placement (H : Bytes → Bytes) (mem : Memory)
    (sp : Slices.MerkleProof) (rootSlice : Slice) (proof : MerkleProof) (r : Bytes)
    (hleaf : FullAt mem sp.LeafHash proof.LeafHash)
    (hall : List.Forall₂ (FullAt mem) sp.Proof proof.Proof)
    (hflags : sp.IsLeft = proof.IsLeft) (hroot : readSlice mem rootSlice = .ok r) :
    Except.map Prod.fst (Slices.VerifyProof H mem sp rootSlice) = VerifyProof H proof r := by
  have hall2 : List.Forall₂ (FullAt (proof.LeafHash :: r :: proof.Proof))
      (fullSlices 2 proof.Proof) proof.Proof := by
    have h := fullSlices_fullAt proof.Proof [proof.LeafHash, r]
    simpa using h
  have h0 : FullAt (proof.LeafHash :: r :: proof.Proof) (fullSlice 0 proof.LeafHash)
      proof.LeafHash := fullSlice_fullAt _ _ _ (by simp)
  have h1 : FullAt (proof.LeafHash :: r :: proof.Proof) (fullSlice 1 r) r :=
    fullSlice_fullAt _ _ _ (by simp)
  rcases verifyLoop_same H proof.IsLeft proof.Proof sp.Proof (fullSlices 2 proof.Proof) 0 mem
      (proof.LeafHash :: r :: proof.Proof) sp.LeafHash (fullSlice 0 proof.LeafHash)
      proof.LeafHash hall hall2 hleaf h0 with
    ⟨e, ha, hb⟩ | ⟨r1, m1, r2, m2, y, ha, hb, hy1, hy2, hx1, hx2⟩
  · simp only [Slices.VerifyProof, VerifyProof, hflags, ha, hb, Except.map]
  · simp only [Slices.VerifyProof, VerifyProof, hflags, ha, hb, readSlice_full hy1,
      readSlice_full hy2, readSlice_extend hroot hx1,
      readSlice_extend (readSlice_full h1) hx2, Except.map]

theorem newLeaves_eq (H : Bytes → Bytes) :
    ∀ (data : List Bytes) (heap : Heap), newLeaves H heap data
      = (heap ++ data.map (fun d => (⟨none, none, none, H d⟩ : Node)),
          List.range' heap.length data.length)
  | [], heap => by simp [newLeaves]
  | d :: rest, heap => by
    simp only [newLeaves, newLeaves_eq H rest, List.length_append, List.length_singleton,
      List.append_assoc, List.singleton_append, List.map_cons, List.length_cons,
      List.range'_succ, List.length_nil, Nat.zero_add]

theorem buildLevel_nil (H : Bytes → Bytes) (heap : Heap) :
    buildLevel H heap [] = .ok (heap, []) := rfl

/-- On an empty level `buildTree` never returns: it recurses on the empty next level. -/
theorem buildTree_nil (H : Bytes → Bytes) :
    ∀ (fuel : Nat) (heap : Heap), buildTree H fuel heap [] = .error .outOfFuel
  | 0, _ => rfl
  | fuel + 1, heap => by
    simp only [buildTree, List.length_nil, buildLevel_nil]
    exact buildTree_nil H fuel heap

theorem buildTree_mono (H : Bytes → Bytes) :
    ∀ (f g : Nat) (heap : Heap) (nodes : List Nat) (r : Heap × Nat), f ≤ g →
      buildTree H f heap nodes = .ok r → buildTree H g heap nodes = .ok r
  | 0, _, _, _, _, _, h => by simp [buildTree] at h
  | f + 1, 0, _, _, _, hfg, _ => by omega
  | f + 1, g + 1, heap, nodes, r, hfg, h => by
    simp only [buildTree] at h ⊢
    split
    · rename_i h1; simpa [h1] using h
    · rename_i h1
      simp only [h1, if_false] at h
      cases hbl : buildLevel H heap nodes with
      | error e => simp [hbl] at h
      | ok v =>
        obtain ⟨heap1, lvl⟩ := v
        simp only [hbl] at h ⊢
        exact buildTree_mono H f g heap1 lvl r (by omega) h

theorem buildTree_total (H : Bytes → Bytes) (fuel : Nat) (heap : Heap) (nodes : List Nat)
    (h1 : 1 ≤ nodes.length) (hf : nodes.length ≤ fuel) (hnd : nodes.Nodup)
    (hv : ∀ p ∈ nodes, p < heap.length)
    (hp1 : nodes.length = 1 → ∀ p ∈ nodes, ∀ n : Node, heap[p]? = some n → n.Parent = none) :
    ∃ heap1 root, buildTree H fuel heap nodes = .ok (heap1, root) ∧
      BuildPost H heap nodes heap1 root := by
  obtain ⟨heap1, root, rn, hbt, hlen, hA, hB, hK, hroot, hrpar, hrhash, hP⟩ :=
    buildTree_spec H fuel heap nodes h1 hf hnd hv hp1
  have hl : 1 ≤ (nodes.map (hashOf heap)).length := by simpa using h1
  have hlf : (nodes.map (hashOf heap)).length ≤ fuel := by simpa using hf
  have hln : (nodes.map (hashOf heap)).length ≤ nodes.length := by simp
  refine ⟨heap1, root, hbt, hlen, hA, hB, hK, ⟨rn, hroot, hrpar, ?_⟩, ?_⟩
  · rw [hrhash]; exact merkleRoot_fuel H _ _ _ hl hlf hln
  · intro j p hj
    obtain ⟨sibs, hc, hm⟩ := hP j p hj
    exact ⟨sibs, hc, by rw [hm]; exact pathSpec_fuel H _ _ _ _ hl hlf hln⟩

theorem buildTree_post (H : Bytes → Bytes) (fuel : Nat) (heap heap1 : Heap) (nodes : List Nat)
    (root : Nat) (h1 : 1 ≤ nodes.length) (hnd : nodes.Nodup)
    (hv : ∀ p ∈ nodes, p < heap.length)
    (hp1 : nodes.length = 1 → ∀ p ∈ nodes, ∀ n : Node, heap[p]? = some n → n.Parent = none)
    (hbt : buildTree H fuel heap nodes = .ok (heap1, root)) :
    BuildPost H heap nodes heap1 root := by
  obtain ⟨heap2, root2, hbt2, hpost⟩ :=
    buildTree_total H (max fuel nodes.length) heap nodes h1 (Nat.le_max_right _ _) hnd hv hp1
  have := buildTree_mono H fuel (max fuel nodes.length) heap nodes _ (Nat.le_max_left _ _) hbt
  rw [this] at hbt2
  cases hbt2
  exact hpost

theorem SameLinks.refl (heap : Heap) : SameLinks heap heap := fun _ => rfl

theorem SameLinks.trans {h1 h2 h3 : Heap} (a : SameLinks h1 h2) (b : SameLinks h2 h3) :
    SameLinks h1 h3 := fun q => (b q).trans (a q)

theorem SameLinks.get {heap heap1 : Heap} (h : SameLinks heap heap1) {q : Nat} {n : Node}
    (hq : heap[q]? = some n) : ∃ n1 : Node, heap1[q]? = some n1 ∧ n1.Left = n.Left ∧
      n1.Right = n.Right ∧ n1.Parent = n.Parent := by
  have := h q
  rw [hq] at this
  cases h1 : heap1[q]? with
  | none => simp [h1] at this
  | some n1 =>
    simp [h1, links] at this
    exact ⟨n1, rfl, this.1, this.2.1, this.2.2⟩

theorem SameLinks.length {heap heap1 : Heap} (h : SameLinks heap heap1) :
    heap1.length = heap.length := by
  rcases Nat.lt_trichotomy heap1.length heap.length with hlt | heq | hgt
  · obtain ⟨n, hn⟩ := get_of_lt hlt
    obtain ⟨n1, hn1, _⟩ := h.get hn
    have := lt_of_get hn1
    omega
  · exact heq
  · obtain ⟨n, hn⟩ := get_of_lt hgt
    have := h heap.length
    rw [hn, List.getElem?_eq_none (Nat.le_refl _)] at this
    simp at this

theorem Chain.of_sameLinks {heap heap1 : Heap} (h : SameLinks heap heap1) {p r : Nat}
    {sibs : List (Nat × Bool)} (c : Chain heap p sibs r) : Chain heap1 p sibs r := by
  induction c with
  | root hp hpar =>
    obtain ⟨n1, h1, _, _, hP⟩ := h.get hp
    exact Chain.root h1 (hP.trans hpar)
  | step hp hpar hq hsib hs hspar _ ih =>
    obtain ⟨n1, h1, _, _, hP⟩ := h.get hp
    obtain ⟨nq1, hq1, hqL, hqR, _⟩ := h.get hq
    obtain ⟨ns1, hs1, _, _, hsP⟩ := h.get hs
    rw [← hqL]
    exact Chain.step h1 (hP.trans hpar) hq1 (by rw [hqL, hqR]; exact hsib) hs1
      (hsP.trans hspar) ih

theorem Chain.top {heap : Heap} {p r : Nat} {sibs : List (Nat × Bool)}
    (c : Chain heap p sibs r) : ∃ rn : Node, heap[r]? = some rn ∧ rn.Parent = none := by
  induction c with
  | root hp hpar => exact ⟨_, hp, hpar⟩
  | step _ _ _ _ _ _ _ ih => exact ih

theorem Chain.start {heap : Heap} {p r : Nat} {sibs : List (Nat × Bool)}
    (c : Chain heap p sibs r) : ∃ n : Node, heap[p]? = some n := by
  cases c with
  | root hp _ => exact ⟨_, hp⟩
  | step hp _ _ _ _ _ _ => exact ⟨_, hp⟩

theorem Chain.nil_parent {heap : Heap} {p r : Nat} (c : Chain heap p [] r) {n : Node}
    (hp : heap[p]? = some n) : n.Parent = none := by
  cases c with
  | root hp1 hpar => rw [hp] at hp1; cases hp1; exact hpar

theorem pathSpec_flags (H : Bytes → Bytes) :
    ∀ (f : Nat) (hs hs1 : List Bytes) (j : Nat), hs.length = hs1.length →
      (pathSpec H f hs j).map Prod.snd = (pathSpec H f hs1 j).map Prod.snd
  | 0, _, _, _, _ => rfl
  | f + 1, hs, hs1, j, h => by
    simp only [pathSpec, h]
    split
    · rfl
    · simp only [List.map_cons]
      rw [pathSpec_flags H f (levelHashes H hs) (levelHashes H hs1) (j / 2)
        (by rw [levelHashes_length, levelHashes_length, h])]

theorem leafHashes_length (st : State) : (leafHashes st).length = st.tree.LeafNodes.length := by
  simp [leafHashes]

theorem WellFormed.single {H : Bytes → Bytes} {st : State} (w : WellFormed H st)
    (h1 : st.tree.LeafNodes.length = 1) :
    ∀ p ∈ st.tree.LeafNodes, ∀ n : Node, st.heap[p]? = some n → n.Parent = none := by
  intro p hp n hn
  obtain ⟨root, _, hsh⟩ := w.shape
  obtain ⟨j, hj⟩ := List.mem_iff_getElem?.mp hp
  obtain ⟨sibs, hc, hm⟩ := hsh j p hj
  have hl : (leafHashes st).length = 1 := by rw [leafHashes_length, h1]
  have : pathSpec H st.tree.LeafNodes.length (leafHashes st) j = [] := by
    rw [h1]; simp [pathSpec, hl]
  rw [this] at hm
  simp at hm
  subst hm
  exact hc.nil_parent hn

theorem WellFormed.transfer {H : Bytes → Bytes} {heap heap1 : Heap} {tree : MerkleTree}
    (w : WellFormed H ⟨heap, tree⟩) (h : SameLinks heap heap1) (hk : HashesOK H heap1) :
    WellFormed H ⟨heap1, tree⟩ := by
  refine ⟨w.nonempty, w.nodup, ?_, hk, ?_⟩
  · intro p hp
    have := w.valid p hp
    simp only at this ⊢
    rw [h.length]; exact this
  · obtain ⟨root, hr, hsh⟩ := w.shape
    refine ⟨root, hr, ?_⟩
    intro j p hj
    obtain ⟨sibs, hc, hm⟩ := hsh j p hj
    refine ⟨sibs, hc.of_sameLinks h, ?_⟩
    rw [hm]
    exact pathSpec_flags H _ _ _ _ (by simp [leafHashes])

theorem WellFormed.ready {H : Bytes → Bytes} {st : State} (w : WellFormed H st) :
    Ready H st.heap st.tree.LeafNodes :=
  ⟨w.nonempty, w.nodup, w.valid, w.hashes, w.single⟩

/-- The state `buildTree` leaves is consistent and keeps the leaf digests. -/
theorem BuildPost.consistent {H : Bytes → Bytes} {heap heap1 : Heap} (tree : MerkleTree)
    {root : Nat} (w : Ready H heap tree.LeafNodes)
    (b : BuildPost H heap tree.LeafNodes heap1 root) :
    Consistent H ⟨heap1, { tree with Root := some root }⟩ ∧
      leafHashes ⟨heap1, { tree with Root := some root }⟩ = tree.LeafNodes.map (hashOf heap) := by
  have hlh : leafHashes ⟨heap1, { tree with Root := some root }⟩
      = tree.LeafNodes.map (hashOf heap) := by
    simp only [leafHashes]
    apply List.map_congr_left
    intro p hp
    obtain ⟨nd, par, h0, h1⟩ := b.keep p hp
    exact hashOf_congr h0 h1 rfl
  have hk : HashesOK H heap1 := by
    intro q nq hq
    by_cases hlt : q < heap.length
    · by_cases hin : q ∈ tree.LeafNodes
      · obtain ⟨nd, par, h0, h1⟩ := b.keep q hin
        rw [hq] at h1; cases h1
        exact w.hashes q nd h0
      · rw [b.frame q hlt hin] at hq
        exact w.hashes q nq hq
    · exact b.fresh q nq (by omega) hq
  have hv : ∀ p ∈ tree.LeafNodes, p < heap1.length := by
    intro p hp
    have := w.valid p hp
    have := b.len
    omega
  obtain ⟨rn, hrn, _, hrh⟩ := b.top
  refine ⟨⟨⟨w.nonempty, w.nodup, hv, hk, ⟨root, rfl, ?_⟩⟩, ⟨root, rn, rfl, hrn, ?_, ?_⟩⟩, hlh⟩
  · intro j p hj
    obtain ⟨sibs, hc, hm⟩ := b.path j p hj
    refine ⟨sibs, hc, ?_⟩
    rw [hlh]
    have := congrArg (List.map Prod.snd) hm
    simpa using this
  · rw [hlh]; exact hrh
  · intro j p hj
    obtain ⟨sibs, hc, hm⟩ := b.path j p hj
    exact ⟨sibs, hc, by rw [hlh]; exact hm⟩

theorem NewMerkleTree_nil (H : Bytes → Bytes) (fuel : Nat) :
    NewMerkleTree H fuel [] = .error .outOfFuel := by
  simp [NewMerkleTree, newLeaves, buildTree_nil]

theorem newLeaves_ready (H : Bytes → Bytes) (data : List Bytes) (hne : 1 ≤ data.length) :
    Ready H (newLeaves H [] data).1 (newLeaves H [] data).2 ∧
      (newLeaves H [] data).2.map (hashOf (newLeaves H [] data).1) = data.map H ∧
      (newLeaves H [] data).2.length = data.length := by
  rw [newLeaves_eq]
  simp only [List.nil_append, List.length_nil]
  have hget : ∀ (p : Nat) (hp : p < data.length),
      (data.map (fun d => (⟨none, none, none, H d⟩ : Node)))[p]?
        = some ⟨none, none, none, H data[p]⟩ := by
    intro p hp
    rw [List.getElem?_map, List.getElem?_eq_getElem hp]; rfl
  refine ⟨⟨by simpa using hne, List.nodup_range' _ _, ?_, ?_, ?_⟩, ?_, by simp⟩
  · intro p hp
    obtain ⟨i, hi, rfl⟩ := List.mem_range'.mp hp
    simp; omega
  · intro q nq hq
    have hql : q < data.length := by simpa using lt_of_get hq
    rw [hget q hql] at hq
    cases hq
    exact ⟨_, rfl⟩
  · intro _ p hp n hn
    have hql : p < data.length := by simpa using lt_of_get hn
    rw [hget p hql] at hn
    cases hn
    rfl
  · apply List.ext_getElem?
    intro k
    by_cases hk : k < data.length
    · rw [List.getElem?_map, List.getElem?_range' _ _ hk, List.getElem?_map,
        List.getElem?_eq_getElem hk]
      simp [hashOf, hget k hk]
    · rw [List.getElem?_eq_none (by simpa using hk), List.getElem?_eq_none (by simpa using hk)]

theorem NewMerkleTree_post {H : Bytes → Bytes} {fuel : Nat} {data : List Bytes} {st : State}
    (h : NewMerkleTree H fuel data = .ok st) :
    Consistent H st ∧ leafHashes st = data.map H ∧ st.tree.LeafNodes.length = data.length := by
  have hne : 1 ≤ data.length := by
    cases data with
    | nil => rw [NewMerkleTree_nil] at h; cases h
    | cons _ _ => simp
  obtain ⟨hr, hh, hl⟩ := newLeaves_ready H data hne
  simp only [NewMerkleTree] at h
  cases hb : buildTree H fuel (newLeaves H [] data).1 (newLeaves H [] data).2 with
  | error e => simp [hb] at h
  | ok v =>
    obtain ⟨heap1, root⟩ := v
    simp only [hb, Except.ok.injEq] at h
    subst h
    have hp := buildTree_post H fuel _ heap1 _ root hr.nonempty hr.nodup hr.valid hr.single hb
    have hc := BuildPost.consistent ⟨none, (newLeaves H [] data).2⟩ hr hp
    exact ⟨hc.1, hc.2.trans hh, hl⟩

theorem NewMerkleTree_total (H : Bytes → Bytes) (fuel : Nat) (data : List Bytes)
    (hne : 1 ≤ data.length) (hf : data.length ≤ fuel) :
    ∃ st, NewMerkleTree H fuel data = .ok st := by
  obtain ⟨hr, _, hl⟩ := newLeaves_ready H data hne
  obtain ⟨heap1, root, hb, _⟩ := buildTree_total H fuel _ _ hr.nonempty (by omega) hr.nodup
    hr.valid hr.single
  exact ⟨⟨heap1, ⟨some root, (newLeaves H [] data).2⟩⟩, by simp only [NewMerkleTree, hb]⟩

theorem Consistent.root_hash {H : Bytes → Bytes} {st : State} (c : Consistent H st) :
    ∃ h, GetRootHash st = .ok h ∧
      some h = merkleRoot H st.tree.LeafNodes.length (leafHashes st) := by
  obtain ⟨root, rn, hr, hrn, hh, _⟩ := c.agree
  exact ⟨rn.Hash, by simp [GetRootHash, Merkle.rootHash, hr, deref, hrn], hh⟩

theorem rebuild_post {H : Bytes → Bytes} {fuel : Nat} {heap : Heap} {tree : MerkleTree}
    {r : Except GoError Bytes} {st1 : State} (w : Ready H heap tree.LeafNodes)
    (h : rebuild H fuel heap tree = .ok (r, st1)) :
    ∃ hsh, r = .ok hsh ∧ GetRootHash st1 = .ok hsh ∧ Consistent H st1 ∧
      st1.tree.LeafNodes = tree.LeafNodes ∧
      leafHashes st1 = tree.LeafNodes.map (hashOf heap) := by
  simp only [rebuild] at h
  cases hb : buildTree H fuel heap tree.LeafNodes with
  | error e => simp [hb] at h
  | ok v =>
    obtain ⟨heap1, root⟩ := v
    have hp := buildTree_post H fuel _ heap1 _ root w.nonempty w.nodup w.valid w.single hb
    obtain ⟨hc, hl⟩ := BuildPost.consistent tree w hp
    obtain ⟨hsh, hg, _⟩ := hc.root_hash
    simp only [GetRootHash] at hg
    simp only [hb, hg, Except.ok.injEq, Prod.mk.injEq] at h
    obtain ⟨h1, h2⟩ := h
    subst h1 h2
    exact ⟨hsh, rfl, hg, hc, rfl, hl⟩

theorem rebuild_total {H : Bytes → Bytes} (fuel : Nat) {heap : Heap} {tree : MerkleTree}
    (w : Ready H heap tree.LeafNodes) (hf : tree.LeafNodes.length ≤ fuel) :
    ∃ r st1, rebuild H fuel heap tree = .ok (r, st1) := by
  obtain ⟨heap1, root, hb, hp⟩ := buildTree_total H fuel heap tree.LeafNodes w.nonempty hf
    w.nodup w.valid w.single
  obtain ⟨hc, _⟩ := BuildPost.consistent tree w hp
  obtain ⟨hsh, hg, _⟩ := hc.root_hash
  simp only [GetRootHash] at hg
  exact ⟨.ok hsh, ⟨heap1, { tree with Root := some root }⟩, by simp only [rebuild, hb, hg]⟩

/-- The effect of the assignment `p.Hash = h` on the arena. -/
theorem setHash_spec {heap : Heap} {p : Nat} {n : Node} (hp : heap[p]? = some n) (h : Bytes) :
    ∃ heap1, setHash heap p h = .ok heap1 ∧ SameLinks heap heap1 ∧ hashOf heap1 p = h ∧
      (∀ q, q ≠ p → hashOf heap1 q = hashOf heap q) ∧
      (∀ H : Bytes → Bytes, HashesOK H heap → (∃ x, h = H x) → HashesOK H heap1) := by
  have hl := lt_of_get hp
  refine ⟨heap.set p { n with Hash := h }, by simp [setHash, hp], ?_, ?_, ?_, ?_⟩
  · intro q
    by_cases hq : p = q
    · subst hq
      rw [List.getElem?_set_self hl, hp]; rfl
    · rw [List.getElem?_set_ne hq]
  · simp [hashOf, List.getElem?_set_self hl]
  · intro q hq
    simp [hashOf, List.getElem?_set_ne (Ne.symm hq)]
  · intro H hk hx q nq hq
    by_cases hqp : p = q
    · subst hqp
      rw [List.getElem?_set_self hl] at hq
      cases hq
      exact hx
    · rw [List.getElem?_set_ne hqp] at hq
      exact hk q nq hq

theorem map_hashOf_set {heap heap1 : Heap} {leaves : List Nat} {t p : Nat} {h : Bytes}
    (hnd : leaves.Nodup) (ht : leaves[t]? = some p) (hp : hashOf heap1 p = h)
    (hq : ∀ q, q ≠ p → hashOf heap1 q = hashOf heap q) :
    leaves.map (hashOf heap1) = (leaves.map (hashOf heap)).set t h := by
  apply List.ext_getElem?
  intro k
  rw [List.getElem?_set, List.getElem?_map, List.getElem?_map]
  have htl : t < leaves.length := (List.getElem?_eq_some.mp ht).1
  by_cases hk : t = k
  · subst hk
    simp [ht, hp, htl]
  · simp only [hk, if_false]
    cases hkk : leaves[k]? with
    | none => rfl
    | some q =>
      have hne : q ≠ p := by
        intro e
        subst e
        exact hk (List.getElem?_inj htl hnd (ht.trans hkk.symm))
      simp [hq q hne]

theorem leaf_of_index (leaves : List Nat) {i : Int}
    (hi : ¬(i < 0 ∨ i ≥ (leaves.length : Int))) :
    i.toNat < leaves.length ∧ ∃ p, leaves[i.toNat]? = some p := by
  have hl : i.toNat < leaves.length := by omega
  exact ⟨hl, _, List.getElem?_eq_getElem hl⟩

theorem UpdateLeaf_invalid (H : Bytes → Bytes) (fuel : Nat) (st : State) (i : Int)
    (d : Bytes) (hi : i < 0 ∨ i ≥ (st.tree.LeafNodes.length : Int)) :
    UpdateLeaf H fuel st i d = .ok (.error .invalidLeafIndex, st) := by
  simp [UpdateLeaf, hi]

/-- A call of `UpdateLeaf` with a valid index is the assignment of the leaf digest followed
by the rebuild. -/
theorem UpdateLeaf_unfold {H : Bytes → Bytes} (fuel : Nat) {st : State} {i : Int} (d : Bytes)
    (w : WellFormed H st) (hi : ¬(i < 0 ∨ i ≥ (st.tree.LeafNodes.length : Int))) :
    ∃ heap1, UpdateLeaf H fuel st i d = rebuild H fuel heap1 st.tree ∧
      WellFormed H ⟨heap1, st.tree⟩ ∧
      st.tree.LeafNodes.map (hashOf heap1) = (leafHashes st).set i.toNat (H d) := by
  obtain ⟨hl, p, hp⟩ := leaf_of_index st.tree.LeafNodes hi
  obtain ⟨n, hn⟩ := get_of_lt (w.valid _ (List.mem_iff_getElem?.mpr ⟨_, hp⟩))
  obtain ⟨heap1, hs, hsl, hh, hq, hk⟩ := setHash_spec hn (H d)
  refine ⟨heap1, ?_, w.transfer hsl (hk H w.hashes ⟨d, rfl⟩), map_hashOf_set w.nodup hp hh hq⟩
  simp only [UpdateLeaf, hi, if_false, hp, hs]

theorem UpdateLeaf_post {H : Bytes → Bytes} {fuel : Nat} {st st1 : State} {i : Int} {d : Bytes}
    {r : Except GoError Bytes} (w : WellFormed H st)
    (hi : ¬(i < 0 ∨ i ≥ (st.tree.LeafNodes.length : Int)))
    (h : UpdateLeaf H fuel st i d = .ok (r, st1)) :
    ∃ hsh, r = .ok hsh ∧ GetRootHash st1 = .ok hsh ∧ Consistent H st1 ∧
      st1.tree.LeafNodes = st.tree.LeafNodes ∧
      leafHashes st1 = (leafHashes st).set i.toNat (H d) := by
  obtain ⟨heap1, hu, w1, hh⟩ := UpdateLeaf_unfold fuel d w hi
  rw [hu] at h
  obtain ⟨hsh, h1, h2, h3, h4, h5⟩ := rebuild_post w1.ready h
  exact ⟨hsh, h1, h2, h3, h4, h5.trans hh⟩

theorem UpdateLeaf_total {H : Bytes → Bytes} (fuel : Nat) {st : State} (i : Int) (d : Bytes)
    (w : WellFormed H st) (hf : st.tree.LeafNodes.length ≤ fuel) :
    ∃ r st1, UpdateLeaf H fuel st i d = .ok (r, st1) := by
  by_cases hi : i < 0 ∨ i ≥ (st.tree.LeafNodes.length : Int)
  · exact ⟨_, _, UpdateLeaf_invalid H fuel st i d hi⟩
  · obtain ⟨heap1, hu, w1, _⟩ := UpdateLeaf_unfold fuel d w hi
    rw [hu]
    exact rebuild_total fuel w1.ready hf

theorem updateLoop_post (H : Bytes → Bytes) (tree : MerkleTree) (newDatas : List Bytes) :
    ∀ (idxs : List Int) (heap : Heap) (i : Nat) (res : Option GoError) (heap1 : Heap),
      WellFormed H ⟨heap, tree⟩ →
      updateLoop H tree newDatas heap idxs i = .ok (res, heap1) →
      WellFormed H ⟨heap1, tree⟩ ∧
      (res = none → (∀ idx ∈ idxs, ¬(idx < 0 ∨ idx ≥ (tree.LeafNodes.length : Int))) ∧
        tree.LeafNodes.map (hashOf heap1)
          = batchHashes H (tree.LeafNodes.map (hashOf heap)) idxs (newDatas.drop i)) ∧
      (∀ e, res = some e → e = .invalidLeafIndex ∧
        ∃ idx ∈ idxs, idx < 0 ∨ idx ≥ (tree.LeafNodes.length : Int))
  | [], heap, i, res, heap1, w, h => by
    simp only [updateLoop, Except.ok.injEq, Prod.mk.injEq] at h
    obtain ⟨h1, h2⟩ := h
    subst h1 h2
    exact ⟨w, fun _ => ⟨by simp, by simp [batchHashes]⟩, by simp⟩
  | idx :: rest, heap, i, res, heap1, w, h => by
    by_cases hi : idx < 0 ∨ idx ≥ (tree.LeafNodes.length : Int)
    · simp only [updateLoop, hi, if_true, Except.ok.injEq, Prod.mk.injEq] at h
      obtain ⟨h1, h2⟩ := h
      subst h1 h2
      exact ⟨w, by simp, fun e he => ⟨by cases he; rfl, idx, by simp, hi⟩⟩
    · simp only [updateLoop, hi, if_false] at h
      cases hd : newDatas[i]? with
      | none => simp [hd] at h
      | some d =>
        obtain ⟨hl, p, hp⟩ := leaf_of_index tree.LeafNodes hi
        obtain ⟨n, hn⟩ := get_of_lt (w.valid _ (List.mem_iff_getElem?.mpr ⟨_, hp⟩))
        obtain ⟨heap2, hs, hsl, hh, hq, hk⟩ := setHash_spec hn (H d)
        simp only at hp hs
        simp only [hd, hp, hs] at h
        have w2 : WellFormed H ⟨heap2, tree⟩ := w.transfer hsl (hk H w.hashes ⟨d, rfl⟩)
        obtain ⟨w1, hnone, hsome⟩ := updateLoop_post H tree newDatas rest heap2 (i + 1) res heap1 w2 h
        refine ⟨w1, ?_, ?_⟩
        · intro hres
          obtain ⟨hv, hb⟩ := hnone hres
          refine ⟨?_, ?_⟩
          · intro x hx
            rcases List.mem_cons.mp hx with rfl | hx
            · exact hi
            · exact hv x hx
          · have hil : i < newDatas.length := (List.getElem?_eq_some.mp hd).1
            have hdd : newDatas[i] = d := by
              have := List.getElem?_eq_getElem hil
              rw [hd] at this; cases this; rfl
            rw [hb, List.drop_eq_getElem_cons hil, hdd]
            simp only [batchHashes]
            rw [map_hashOf_set w.nodup hp hh hq]
        · intro e he
          obtain ⟨h1, x, hx, hxi⟩ := hsome e he
          exact ⟨h1, x, List.mem_cons_of_mem _ hx, hxi⟩

theorem updateLoop_total (H : Bytes → Bytes) (tree : MerkleTree) (newDatas : List Bytes) :
    ∀ (idxs : List Int) (heap : Heap) (i : Nat), WellFormed H ⟨heap, tree⟩ →
      i + idxs.length ≤ newDatas.length →
      ∃ res heap1, updateLoop H tree newDatas heap idxs i = .ok (res, heap1)
  | [], heap, _, _, _ => ⟨none, heap, rfl⟩
  | idx :: rest, heap, i, w, hlen => by
    by_cases hi : idx < 0 ∨ idx ≥ (tree.LeafNodes.length : Int)
    · exact ⟨some .invalidLeafIndex, heap, by simp only [updateLoop, hi, if_true]⟩
    · simp only [List.length_cons] at hlen
      have hd : newDatas[i]? = some newDatas[i] := List.getElem?_eq_getElem (by omega)
      obtain ⟨hl, p, hp⟩ := leaf_of_index tree.LeafNodes hi
      obtain ⟨n, hn⟩ := get_of_lt (w.valid _ (List.mem_iff_getElem?.mpr ⟨_, hp⟩))
      obtain ⟨heap2, hs, hsl, hh, hq, hk⟩ := setHash_spec hn (H newDatas[i])
      simp only at hp hs
      have w2 : WellFormed H ⟨heap2, tree⟩ := w.transfer hsl (hk H w.hashes ⟨_, rfl⟩)
      obtain ⟨res, heap1, h1⟩ := updateLoop_total H tree newDatas rest heap2 (i + 1) w2
        (by omega)
      exact ⟨res, heap1, by simp only [updateLoop, hi, if_false, hd, hp, hs, h1]⟩

theorem UpdateLeaves_mismatch (H : Bytes → Bytes) (fuel : Nat) (st : State)
    (idxs : List Int) (ds : List Bytes) (h : idxs.length ≠ ds.length) :
    UpdateLeaves H fuel st idxs ds = .ok (.error .mismatchedLength, st) := by
  simp [UpdateLeaves, h]

theorem UpdateLeaves_post {H : Bytes → Bytes} {fuel : Nat} {st st1 : State} {idxs : List Int}
    {ds : List Bytes} {r : Except GoError Bytes} (w : WellFormed H st)
    (h : UpdateLeaves H fuel st idxs ds = .ok (r, st1)) :
    WellFormed H st1 ∧ st1.tree.LeafNodes = st.tree.LeafNodes ∧
      (idxs.length = ds.length →
        (∀ idx ∈ idxs, ¬(idx < 0 ∨ idx ≥ (st.tree.LeafNodes.length : Int))) →
        ∃ hsh, r = .ok hsh ∧ GetRootHash st1 = .ok hsh ∧ Consistent H st1 ∧
          leafHashes st1 = batchHashes H (leafHashes st) idxs ds) := by
  by_cases hlen : idxs.length ≠ ds.length
  · rw [UpdateLeaves_mismatch H fuel st idxs ds hlen] at h
    simp only [Except.ok.injEq, Prod.mk.injEq] at h
    obtain ⟨_, h2⟩ := h
    subst h2
    exact ⟨w, rfl, fun he => absurd he hlen⟩
  · simp only [UpdateLeaves, hlen, if_false] at h
    cases hu : updateLoop H st.tree ds st.heap idxs 0 with
    | error e => simp [hu] at h
    | ok v =>
      obtain ⟨res, heap1⟩ := v
      obtain ⟨w1, hnone, hsome⟩ := updateLoop_post H st.tree ds idxs st.heap 0 res heap1 w hu
      cases res with
      | some e =>
        simp only [hu, Except.ok.injEq, Prod.mk.injEq] at h
        obtain ⟨_, h2⟩ := h
        subst h2
        refine ⟨w1, rfl, ?_⟩
        intro _ hv
        obtain ⟨_, x, hx, hxi⟩ := hsome e rfl
        exact absurd hxi (hv x hx)
      | none =>
        simp only [hu] at h
        obtain ⟨hsh, h1, h2, h3, h4, h5⟩ := rebuild_post w1.ready h
        refine ⟨h3.wf, h4, fun _ _ => ⟨hsh, h1, h2, h3, ?_⟩⟩
        rw [h5, (hnone rfl).2]
        simp [leafHashes]

theorem UpdateLeaves_total {H : Bytes → Bytes} (fuel : Nat) {st : State} (idxs : List Int)
    (ds : List Bytes) (w : WellFormed H st) (hf : st.tree.LeafNodes.length ≤ fuel) :
    ∃ r st1, UpdateLeaves H fuel st idxs ds = .ok (r, st1) := by
  by_cases hlen : idxs.length ≠ ds.length
  · exact ⟨_, _, UpdateLeaves_mismatch H fuel st idxs ds hlen⟩
  · have hl : 0 + idxs.length ≤ ds.length := by omega
    obtain ⟨res, heap1, hu⟩ := updateLoop_total H st.tree ds idxs st.heap 0 w hl
    obtain ⟨w1, _, _⟩ := updateLoop_post H st.tree ds idxs st.heap 0 res heap1 w hu
    cases res with
    | some e =>
      exact ⟨.error e, { st with heap := heap1 }, by simp only [UpdateLeaves, hlen, if_false, hu]⟩
    | none =>
      obtain ⟨r, st1, hr⟩ := rebuild_total fuel w1.ready hf
      exact ⟨r, st1, by simp only [UpdateLeaves, hlen, if_false, hu, hr]⟩

theorem Reachable.wf {H : Bytes → Bytes} {st : State} (h : Reachable H st) :
    WellFormed H st := by
  induction h with
  | new hn => exact (NewMerkleTree_post hn).1.wf
  | @updateLeaf fuel st st1 i d r _ hu ih =>
    by_cases hi : i < 0 ∨ i ≥ (st.tree.LeafNodes.length : Int)
    · rw [UpdateLeaf_invalid H fuel st i d hi] at hu
      simp only [Except.ok.injEq, Prod.mk.injEq] at hu
      rw [← hu.2]; exact ih
    · obtain ⟨_, _, _, hc, _⟩ := UpdateLeaf_post ih hi hu
      exact hc.wf
  | updateLeaves _ hu ih => exact (UpdateLeaves_post ih hu).1

theorem Chain.sibs_get {heap : Heap} {p r : Nat} {sibs : List (Nat × Bool)}
    (c : Chain heap p sibs r) : ∀ sb ∈ sibs, ∃ ns : Node, heap[sb.1]? = some ns := by
  induction c with
  | root _ _ => intro sb hsb; simp at hsb
  | step _ _ _ _ hs _ _ ih =>
    intro sb hsb
    rcases List.mem_cons.mp hsb with rfl | hsb
    · exact ⟨_, hs⟩
    · exact ih sb hsb

theorem GenerateProof_invalid (fuel : Nat) (st : State) (i : Int)
    (hi : i < 0 ∨ i ≥ (st.tree.LeafNodes.length : Int)) :
    GenerateProof fuel st i = .ok (.error .invalidLeafIndex) := by
  simp [GenerateProof, hi]

theorem GetLeafHash_invalid (st : State) (i : Int)
    (hi : i < 0 ∨ i ≥ (st.tree.LeafNodes.length : Int)) :
    GetLeafHash st i = .ok (.error .invalidLeafIndex) := by
  simp [GetLeafHash, hi]

theorem GenerateProof_of_chain {fuel : Nat} {st : State} {i : Int} {p root : Nat}
    {sibs : List (Nat × Bool)} (hi : ¬(i < 0 ∨ i ≥ (st.tree.LeafNodes.length : Int)))
    (hp : st.tree.LeafNodes[i.toNat]? = some p) (hc : Chain st.heap p sibs root)
    (hf : sibs.length < fuel) :
    GenerateProof fuel st i = .ok (.ok ⟨hashOf st.heap p,
      (sibs.map (fun sb => (hashOf st.heap sb.1, sb.2))).map Prod.fst,
      (sibs.map (fun sb => (hashOf st.heap sb.1, sb.2))).map Prod.snd⟩) := by
  obtain ⟨n, hn⟩ := hc.start
  simp only [GenerateProof, hi, if_false, hp, deref_of_get hn]
  rw [proofLoop_of_chain hc fuel _ hf]
  simp [hashOf_of_get hn, Function.comp_def]

theorem GetLeafHash_valid {H : Bytes → Bytes} {st : State} (w : WellFormed H st) {i : Int}
    (hi : ¬(i < 0 ∨ i ≥ (st.tree.LeafNodes.length : Int))) :
    GetLeafHash st i = .ok (.ok ((leafHashes st).getD i.toNat [])) := by
  obtain ⟨hl, p, hp⟩ := leaf_of_index st.tree.LeafNodes hi
  obtain ⟨n, hn⟩ := get_of_lt (w.valid _ (List.mem_iff_getElem?.mpr ⟨_, hp⟩))
  simp [GetLeafHash, hi, hp, deref_of_get hn, leafHashes, List.getD_eq_getElem?_getD,
    hashOf_of_get hn]

/-- In a well-formed state `GenerateProof` returns, for a valid index, the current leaf
digest with a path of the shape of the tree, made of digests stored in the arena. -/
theorem WellFormed.proof_shape {H : Bytes → Bytes} {st : State} (w : WellFormed H st)
    (fuel : Nat) (hf : st.tree.LeafNodes.length ≤ fuel) {i : Int}
    (hi : ¬(i < 0 ∨ i ≥ (st.tree.LeafNodes.length : Int))) :
    ∃ path : List (Bytes × Bool),
      path.map Prod.snd
        = (pathSpec H st.tree.LeafNodes.length (leafHashes st) i.toNat).map Prod.snd ∧
      (∀ h ∈ path.map Prod.fst, ∃ x, h = H x) ∧
      (∃ x, (leafHashes st).getD i.toNat [] = H x) ∧
      GenerateProof fuel st i = .ok (.ok ⟨(leafHashes st).getD i.toNat [],
        path.map Prod.fst, path.map Prod.snd⟩) := by
  obtain ⟨hl, p, hp⟩ := leaf_of_index st.tree.LeafNodes hi
  obtain ⟨root, _, hsh⟩ := w.shape
  obtain ⟨sibs, hc, hm⟩ := hsh _ _ hp
  obtain ⟨n, hn⟩ := hc.start
  have hlen : sibs.length < fuel := by
    have h1 := congrArg List.length hm
    simp only [List.length_map] at h1
    have h2 := pathSpec_length_lt H st.tree.LeafNodes.length (leafHashes st) i.toNat
      (by rw [leafHashes_length]; exact w.nonempty)
    rw [leafHashes_length] at h2
    omega
  have hleaf : (leafHashes st).getD i.toNat [] = hashOf st.heap p := by
    simp [leafHashes, List.getD_eq_getElem?_getD, hp]
  refine ⟨sibs.map (fun sb => (hashOf st.heap sb.1, sb.2)), ?_, ?_, ?_, ?_⟩
  · rw [← hm]; simp [Function.comp_def]
  · intro h hh
    simp only [List.map_map, List.mem_map, Function.comp_apply] at hh
    obtain ⟨sb, hsb, rfl⟩ := hh
    obtain ⟨ns, hns⟩ := hc.sibs_get sb hsb
    obtain ⟨x, hx⟩ := w.hashes _ _ hns
    exact ⟨x, by rw [hashOf_of_get hns, hx]⟩
  · obtain ⟨x, hx⟩ := w.hashes _ _ hn
    exact ⟨x, by rw [hleaf, hashOf_of_get hn, hx]⟩
  · rw [hleaf]
    exact GenerateProof_of_chain hi hp hc hlen

/-- In a consistent state the proof of a valid index is the audit path computed from the
leaf digests, and it verifies against the root digest. -/
theorem Consistent.proof_verifies {H : Bytes → Bytes} {st : State} (c : Consistent H st)
    (fuel : Nat) (hf : st.tree.LeafNodes.length ≤ fuel) {i : Int}
    (hi : ¬(i < 0 ∨ i ≥ (st.tree.LeafNodes.length : Int))) :
    ∃ proof root, GenerateProof fuel st i = .ok (.ok proof) ∧
      proof.LeafHash = (leafHashes st).getD i.toNat [] ∧
      proof.Proof = (pathSpec H st.tree.LeafNodes.length (leafHashes st) i.toNat).map Prod.fst ∧
      proof.IsLeft = (pathSpec H st.tree.LeafNodes.length (leafHashes st) i.toNat).map Prod.snd ∧
      GetRootHash st = .ok root ∧
      some root = merkleRoot H st.tree.LeafNodes.length (leafHashes st) ∧
      VerifyProof H proof root = .ok true := by
  obtain ⟨hl, p, hp⟩ := leaf_of_index st.tree.LeafNodes hi
  obtain ⟨root, rn, hr, hrn, hrh, hpath⟩ := c.agree
  obtain ⟨sibs, hc, hm⟩ := hpath _ _ hp
  have hlen : sibs.length < fuel := by
    have h1 := congrArg List.length hm
    simp only [List.length_map] at h1
    have h2 := pathSpec_length_lt H st.tree.LeafNodes.length (leafHashes st) i.toNat
      (by rw [leafHashes_length]; exact c.wf.nonempty)
    rw [leafHashes_length] at h2
    omega
  have hleaf : (leafHashes st).getD i.toNat [] = hashOf st.heap p := by
    simp [leafHashes, List.getD_eq_getElem?_getD, hp]
  have hx : (leafHashes st)[i.toNat]? = some (hashOf st.heap p) := by
    simp [leafHashes, hp]
  have hfold := foldPath_pathSpec H st.tree.LeafNodes.length (leafHashes st) i.toNat _
    (by rw [leafHashes_length]) hx
  obtain ⟨h, hg, hh⟩ := c.root_hash
  have hgen := GenerateProof_of_chain hi hp hc hlen
  rw [hm] at hgen
  refine ⟨_, h, hgen, hleaf.symm, rfl, rfl, hg, hh, ?_⟩
  rw [VerifyProof_path]
  rw [← hh] at hfold
  simp only [Option.some.injEq] at hfold
  simp [hfold]

/-- Two folds over paths of one shape, all of whose digests have one length, agree only
when they start from the same digest, unless the digest function collides. -/
theorem foldPath_collision (H : Bytes → Bytes) (L : Nat) (hlen : ∀ x, (H x).length = L) :
    ∀ (p p1 : List (Bytes × Bool)) (x x1 : Bytes), p.map Prod.snd = p1.map Prod.snd →
      x.length = L → x1.length = L → (∀ h ∈ p.map Prod.fst, h.length = L) →
      (∀ h ∈ p1.map Prod.fst, h.length = L) → foldPath H x p = foldPath H x1 p1 →
      x = x1 ∨ ∃ a b, a ≠ b ∧ H a = H b
  | [], [], x, x1, _, _, _, _, _, h => Or.inl h
  | [], _ :: _, _, _, hs, _, _, _, _, _ => by simp at hs
  | _ :: _, [], _, _, hs, _, _, _, _, _ => by simp at hs
  | (s, b) :: rest, (s1, b1) :: rest1, x, x1, hs, hx, hx1, hp, hp1, h => by
    simp only [List.map_cons, List.cons.injEq] at hs
    obtain ⟨hb, hs⟩ := hs
    subst hb
    have hsl : s.length = L := hp s (by simp)
    have hsl1 : s1.length = L := hp1 s1 (by simp)
    rw [foldPath_cons, foldPath_cons] at h
    have ih := foldPath_collision H L hlen rest rest1 _ _ hs
      (by split <;> exact hlen _) (by split <;> exact hlen _)
      (fun h hh => hp h (by simp only [List.map_cons, List.mem_cons]; exact Or.inr hh))
      (fun h hh => hp1 h (by simp only [List.map_cons, List.mem_cons]; exact Or.inr hh)) h
    rcases ih with ih | ih
    · cases b
      · simp only [Bool.false_eq_true, if_false] at ih
        by_cases he : x ++ s = x1 ++ s1
        · exact Or.inl (List.append_inj he (by omega)).1
        · exact Or.inr ⟨_, _, he, ih⟩
      · simp only [if_true] at ih
        by_cases he : s ++ x = s1 ++ x1
        · exact Or.inl (List.append_inj he (by omega)).2
        · exact Or.inr ⟨_, _, he, ih⟩
    · exact Or.inr ih

theorem batchHashes_length (H : Bytes → Bytes) :
    ∀ (idxs : List Int) (hs : List Bytes) (ds : List Bytes),
      (batchHashes H hs idxs ds).length = hs.length
  | [], _, _ => by simp [batchHashes]
  | _ :: _, _, [] => by simp [batchHashes]
  | idx :: rest, hs, d :: ds => by
    simp only [batchHashes]
    rw [batchHashes_length H rest]
    simp

theorem batchHashes_untouched (H : Bytes → Bytes) (t : Nat) :
    ∀ (idxs : List Int) (hs : List Bytes) (ds : List Bytes),
      (∀ x ∈ idxs, x.toNat ≠ t) → (batchHashes H hs idxs ds)[t]? = hs[t]?
  | [], _, _, _ => by simp [batchHashes]
  | _ :: _, _, [], _ => by simp [batchHashes]
  | idx :: rest, hs, d :: ds, h => by
    simp only [batchHashes]
    rw [batchHashes_untouched H t rest _ ds (fun x hx => h x (List.mem_cons_of_mem _ hx))]
    exact List.getElem?_set_ne (h idx (by simp))

theorem batchHashes_last (H : Bytes → Bytes) :
    ∀ (idxs : List Int) (hs : List Bytes) (ds : List Bytes) (k : Nat) (idx : Int) (d : Bytes),
      (∀ x ∈ idxs, 0 ≤ x) → idx.toNat < hs.length → idxs[k]? = some idx → ds[k]? = some d →
      (∀ k1, k < k1 → idxs[k1]? ≠ some idx) →
      (batchHashes H hs idxs ds)[idx.toNat]? = some (H d)
  | [], _, _, _, _, _, _, _, hk, _, _ => by simp at hk
  | _ :: _, _, [], _, _, _, _, _, _, hd, _ => by simp at hd
  | i0 :: rest, hs, d0 :: ds, 0, idx, d, hnn, hl, hk, hd, hlast => by
    simp only [List.getElem?_cons_zero, Option.some.injEq] at hk hd
    subst hk hd
    simp only [batchHashes]
    rw [batchHashes_untouched H _ rest _ ds]
    · exact List.getElem?_set_self hl
    · intro x hx e
      obtain ⟨k1, hk1⟩ := List.mem_iff_getElem?.mp hx
      have hx0 := hnn x (List.mem_cons_of_mem _ hx)
      have hi0 := hnn i0 (by simp)
      have : x = i0 := by omega
      subst this
      exact hlast (k1 + 1) (by omega) (by simpa using hk1)
  | i0 :: rest, hs, d0 :: ds, k + 1, idx, d, hnn, hl, hk, hd, hlast => by
    simp only [List.getElem?_cons_succ] at hk hd
    simp only [batchHashes]
    exact batchHashes_last H rest _ ds k idx d (fun x hx => hnn x (List.mem_cons_of_mem _ hx))
      (by simpa using hl) hk hd
      (fun k1 hk1 => by simpa using hlast (k1 + 1) (by omega))

theorem toyHash_injective : Function.Injective toyHash := by
  have key : ∀ x y : Bytes, x.foldr (fun a acc => Nat.pair a acc + 1) 0
      = y.foldr (fun a acc => Nat.pair a acc + 1) 0 → x = y := by
    intro x
    induction x with
    | nil => intro y h; cases y with
      | nil => rfl
      | cons b y => simp at h
    | cons a x ih => intro y h; cases y with
      | nil => simp at h
      | cons b y =>
        simp only [List.foldr_cons, Nat.add_right_cancel_iff] at h
        obtain ⟨h1, h2⟩ := Nat.pair_eq_pair.mp h
        rw [h1, ih y h2]
  intro x y h
  exact key x y (by simpa [toyHash] using h)

theorem exampleState_new : NewMerkleTree toyHash 3 [[1], [2], [3]] = .ok exampleState := by
  decide

theorem exampleState_reachable : Reachable toyHash exampleState :=
  Reachable.new exampleState_new

theorem index_valid {n : Nat} {i : Int} (h0 : 0 ≤ i) (h1 : i < (n : Int)) :
    ¬(i < 0 ∨ i ≥ (n : Int)) := by omega

/-- Claim C1: for every non-empty list of blocks and every index `0 ≤ i < len(data)`, on the tree
returned by `NewMerkleTree(data)` the call `GenerateProof(i)` returns a proof without
error and `VerifyProof(proof, tree.GetRootHash())` is true (with any fuel of at least
`len(data)`). -/
theorem C1_proof_round_trip (H : Bytes → Bytes) (data : List Bytes) (i : Int) (fuel : Nat)
    (hne : data ≠ []) (h0 : 0 ≤ i) (h1 : i < (data.length : Int)) (hf : data.length ≤ fuel) :
    ∃ st proof root, NewMerkleTree H fuel data = .ok st ∧
      GenerateProof fuel st i = .ok (.ok proof) ∧ GetRootHash st = .ok root ∧
      VerifyProof H proof root = .ok true := by
  have hl : 1 ≤ data.length := List.length_pos.mpr hne
  obtain ⟨st, hst⟩ := NewMerkleTree_total H fuel data hl hf
  obtain ⟨hc, _, hn⟩ := NewMerkleTree_post hst
  obtain ⟨proof, root, hg, _, _, _, hr, _, hv⟩ :=
    hc.proof_verifies fuel (by omega) (index_valid h0 (by rw [hn]; exact h1))
  exact ⟨st, proof, root, hst, hg, hr, hv⟩

/-- Claim C1, witness: the theorem applied to the three-leaf example tree. -/
theorem C1_proof_round_trip_witness :
    ∃ st proof root, NewMerkleTree toyHash 3 [[1], [2], [3]] = .ok st ∧
      GenerateProof 3 st 2 = .ok (.ok proof) ∧ GetRootHash st = .ok root ∧
      VerifyProof toyHash proof root = .ok true :=
  C1_proof_round_trip toyHash [[1], [2], [3]] 2 3 (by decide) (by decide) (by decide)
    (by decide)

/-- Claim C2 (the code at the failing input): on the empty list `NewMerkleTree` reports no
`EmptyInput` error and returns no tree; `buildTree` recurses on an empty level for ever,
whatever the fuel. -/
theorem C2_empty_input_never_returns (H : Bytes → Bytes) (fuel : Nat) :
    NewMerkleTree H fuel [] = .error .outOfFuel :=
  NewMerkleTree_nil H fuel

/-- Claim C3 (the code at the failing input): on the three-leaf example tree, `UpdateLeaves` with
indices `[0, 7]` returns the invalid-index error, yet the digest of leaf 0 has been
replaced, the stored root digest is the old one, and the proof of leaf 0 no longer
verifies against it. -/
theorem C3_batch_half_applied_on_late_invalid_index :
    ∃ st1 proof root, UpdateLeaves toyHash 3 exampleState [0, 7] [[9], [9]]
        = .ok (.error .invalidLeafIndex, st1) ∧
      GetLeafHash exampleState 0 = .ok (.ok (toyHash [1])) ∧
      GetLeafHash st1 0 = .ok (.ok (toyHash [9])) ∧
      toyHash [9] ≠ toyHash [1] ∧
      GetRootHash st1 = GetRootHash exampleState ∧
      GenerateProof 3 st1 0 = .ok (.ok proof) ∧ GetRootHash st1 = .ok root ∧
      VerifyProof toyHash proof root = .ok false := by
  refine ⟨{ exampleState with heap := exampleState.heap.set 0 ⟨none, none, some 3, toyHash [9]⟩ },
    ⟨toyHash [9], [[7], toyHash [13, 13]], [false, false]⟩,
    toyHash (toyHash [3, 7] ++ toyHash [13, 13]), ?_, ?_, ?_, ?_, ?_, ?_, ?_, ?_⟩ <;> decide

/-- Claim C4: when `len(leafIndices) != len(newDatas)`, `UpdateLeaves` returns the
mismatched-length error and leaves the state as it was: every leaf digest and the root
digest are unchanged. -/
theorem C4_length_mismatch (H : Bytes → Bytes) (fuel : Nat) (st : State)
    (leafIndices : List Int) (newDatas : List Bytes)
    (h : leafIndices.length ≠ newDatas.length) :
    ∃ st1, UpdateLeaves H fuel st leafIndices newDatas = .ok (.error .mismatchedLength, st1) ∧
      st1 = st ∧ (∀ j, GetLeafHash st1 j = GetLeafHash st j) ∧
      GetRootHash st1 = GetRootHash st :=
  ⟨st, UpdateLeaves_mismatch H fuel st leafIndices newDatas h, rfl, fun _ => rfl, rfl⟩

/-- Claim C4, witness: the theorem applied to the three-leaf example tree. -/
theorem C4_length_mismatch_witness :
    ∃ st1, UpdateLeaves toyHash 3 exampleState [0, 1] [[9]] = .ok (.error .mismatchedLength, st1) ∧
      st1 = exampleState ∧ (∀ j, GetLeafHash st1 j = GetLeafHash exampleState j) ∧
      GetRootHash st1 = GetRootHash exampleState :=
  C4_length_mismatch toyHash 3 exampleState [0, 1] [[9]] (by decide)

/-- Claim C5: for an index `< 0` or `≥ N`, each of `GenerateProof`, `UpdateLeaf` and
`GetLeafHash` returns the invalid-index error (no panic), and `UpdateLeaf` leaves the
state, so all leaf digests and the root, unchanged. -/
theorem C5_index_out_of_range (H : Bytes → Bytes) (fuel : Nat) (st : State) (index : Int)
    (block : Bytes) (h : index < 0 ∨ index ≥ (st.tree.LeafNodes.length : Int)) :
    GenerateProof fuel st index = .ok (.error .invalidLeafIndex) ∧
      UpdateLeaf H fuel st index block = .ok (.error .invalidLeafIndex, st) ∧
      GetLeafHash st index = .ok (.error .invalidLeafIndex) :=
  ⟨GenerateProof_invalid fuel st index h, UpdateLeaf_invalid H fuel st index block h,
    GetLeafHash_invalid st index h⟩

/-- Claim C5, witness: the theorem applied to the three-leaf example tree. -/
theorem C5_index_out_of_range_witness :
    (GenerateProof 3 exampleState (-1) = .ok (.error .invalidLeafIndex) ∧
      UpdateLeaf toyHash 3 exampleState (-1) [9] = .ok (.error .invalidLeafIndex, exampleState) ∧
      GetLeafHash exampleState (-1) = .ok (.error .invalidLeafIndex)) ∧
    (GenerateProof 3 exampleState 3 = .ok (.error .invalidLeafIndex) ∧
      UpdateLeaf toyHash 3 exampleState 3 [9] = .ok (.error .invalidLeafIndex, exampleState) ∧
      GetLeafHash exampleState 3 = .ok (.error .invalidLeafIndex)) :=
  ⟨C5_index_out_of_range toyHash 3 exampleState (-1) [9] (by decide),
    C5_index_out_of_range toyHash 3 exampleState 3 [9] (by decide)⟩

/-- Claim C6: for all blocks `a`, `b`, `c` the tree `NewMerkleTree([a, b, c])` has the root digest
`H(H(H(a)||H(b)) || H(H(c)||H(c)))`, and the parent of the third leaf has the digest
`H(H(c)||H(c))`. -/
theorem C6_odd_count (H : Bytes → Bytes) (a b c : Bytes) (fuel : Nat) (hf : 3 ≤ fuel) :
    ∃ st, NewMerkleTree H fuel [a, b, c] = .ok st ∧
      GetRootHash st = .ok (H (H (H a ++ H b) ++ H (H c ++ H c))) ∧
      parentHashOfLeaf st 2 = some (H (H c ++ H c)) := by
  obtain ⟨f, rfl⟩ : ∃ f, fuel = f + 3 := ⟨fuel - 3, by omega⟩
  exact ⟨_, rfl, rfl, rfl⟩

/-- Claim C6, witness: the theorem applied to the three-leaf example tree. -/
theorem C6_odd_count_witness :
    ∃ st, NewMerkleTree toyHash 3 [[1], [2], [3]] = .ok st ∧
      GetRootHash st
        = .ok (toyHash (toyHash (toyHash [1] ++ toyHash [2])
            ++ toyHash (toyHash [3] ++ toyHash [3]))) ∧
      parentHashOfLeaf st 2 = some (toyHash (toyHash [3] ++ toyHash [3])) :=
  C6_odd_count toyHash [1] [2] [3] 3 (by decide)

/-- Claim C7: in every reachable state of a tree, for every valid index `i` and block
`newBlock`, `UpdateLeaf(i, newBlock)` succeeds, and afterwards a freshly generated proof for
`i` has `LeafHash = H(newBlock)` and verifies against the new root digest. -/
theorem C7_fresh_proof_after_update (H : Bytes → Bytes) (st : State) (hr : Reachable H st)
    (fuel : Nat) (hf : st.tree.LeafNodes.length ≤ fuel) (i : Int) (h0 : 0 ≤ i)
    (h1 : i < (st.tree.LeafNodes.length : Int)) (newBlock : Bytes) :
    ∃ root st1 proof, UpdateLeaf H fuel st i newBlock = .ok (.ok root, st1) ∧
      GetRootHash st1 = .ok root ∧ GenerateProof fuel st1 i = .ok (.ok proof) ∧
      proof.LeafHash = H newBlock ∧ VerifyProof H proof root = .ok true := by
  have w := hr.wf
  have hi := index_valid h0 h1
  obtain ⟨r, st1, hu⟩ := UpdateLeaf_total fuel i newBlock w hf
  obtain ⟨root, rfl, hg, hc, hl, hh⟩ := UpdateLeaf_post w hi hu
  obtain ⟨proof, root1, hgen, hleaf, _, _, hr1, _, hv⟩ :=
    hc.proof_verifies fuel (by rw [hl]; exact hf) (by rw [hl]; exact hi)
  rw [hg] at hr1
  cases hr1
  refine ⟨root, st1, proof, hu, hg, hgen, ?_, hv⟩
  rw [hleaf, hh, List.getD_eq_getElem?_getD,
    List.getElem?_set_self (by rw [leafHashes_length]; omega)]
  rfl

/-- Claim C7, witness: the theorem applied to the three-leaf example tree. -/
theorem C7_fresh_proof_after_update_witness :
    ∃ root st1 proof, UpdateLeaf toyHash 3 exampleState 2 [9] = .ok (.ok root, st1) ∧
      GetRootHash st1 = .ok root ∧ GenerateProof 3 st1 2 = .ok (.ok proof) ∧
      proof.LeafHash = toyHash [9] ∧ VerifyProof toyHash proof root = .ok true :=
  C7_fresh_proof_after_update toyHash exampleState exampleState_reachable 3 (by decide) 2
    (by decide) (by decide) [9]

/-- Claim C8 as stated fails: with the collision-free `toyHash`, updating leaf 0 of the example
tree with the block it already holds leaves the root digest as it was, and the proof
generated before the update verifies against the root after it. -/
theorem C8_counterexample_same_block :
    Function.Injective toyHash ∧
    ∃ oldProof root st1, GenerateProof 3 exampleState 0 = .ok (.ok oldProof) ∧
      UpdateLeaf toyHash 3 exampleState 0 [1] = .ok (.ok root, st1) ∧
      GetRootHash st1 = .ok root ∧ VerifyProof toyHash oldProof root = .ok true := by
  exact ⟨toyHash_injective, _, _, _, rfl, rfl, rfl, rfl⟩

/-- Claim C8 (amended): in every reachable state, for a valid index `i` and a block `newBlock`
whose digest differs from the digest leaf `i` had when the proof was generated, a proof for
`i` generated before `UpdateLeaf(i, newBlock)` fails verification against the root digest
after the update, unless the fixed-length digest function has a collision. -/
theorem C8_stale_proof_rejected (H : Bytes → Bytes)
    (hfix : ∀ x y : Bytes, (H x).length = (H y).length) (st : State) (hr : Reachable H st)
    (fuel : Nat) (hf : st.tree.LeafNodes.length ≤ fuel) (i : Int) (h0 : 0 ≤ i)
    (h1 : i < (st.tree.LeafNodes.length : Int)) (newBlock : Bytes) (oldProof : MerkleProof)
    (hgen : GenerateProof fuel st i = .ok (.ok oldProof))
    (hne : H newBlock ≠ oldProof.LeafHash) :
    ∃ root st1, UpdateLeaf H fuel st i newBlock = .ok (.ok root, st1) ∧
      GetRootHash st1 = .ok root ∧
      (VerifyProof H oldProof root = .ok false ∨ ∃ a b, a ≠ b ∧ H a = H b) := by
  have w := hr.wf
  have hi := index_valid h0 h1
  obtain ⟨path, hflags, hpath, ⟨x, hx⟩, hgen0⟩ := w.proof_shape fuel hf hi
  rw [hgen0] at hgen
  simp only [Except.ok.injEq] at hgen
  subst hgen
  obtain ⟨r, st1, hu⟩ := UpdateLeaf_total fuel i newBlock w hf
  obtain ⟨root, rfl, hg, hc, hl, hh⟩ := UpdateLeaf_post w hi hu
  have hi1 : ¬(i < 0 ∨ i ≥ (st1.tree.LeafNodes.length : Int)) := by rw [hl]; exact hi
  have hf1 : st1.tree.LeafNodes.length ≤ fuel := by rw [hl]; exact hf
  obtain ⟨path1, _, hpath1, _, hgen1⟩ := hc.wf.proof_shape fuel hf1 hi1
  obtain ⟨proof, root1, hgen2, hleaf, hP, hL, hr1, hroot, hv⟩ := hc.proof_verifies fuel hf1 hi1
  rw [hg] at hr1
  cases hr1
  rw [hgen1] at hgen2
  simp only [Except.ok.injEq] at hgen2
  subst hgen2
  simp only at hleaf hP hL hne
  have hnew : (leafHashes st1).getD i.toNat [] = H newBlock := by
    rw [hh, List.getD_eq_getElem?_getD,
      List.getElem?_set_self (by rw [leafHashes_length]; omega)]
    rfl
  refine ⟨root, st1, hu, hg, ?_⟩
  rw [VerifyProof_path] at hv ⊢
  simp only [Except.ok.injEq, decide_eq_true_eq] at hv
  by_cases heq : foldPath H ((leafHashes st).getD i.toNat []) path = root
  · right
    have hcol := foldPath_collision H (H []).length (fun y => hfix y []) path path1
      ((leafHashes st).getD i.toNat []) ((leafHashes st1).getD i.toNat [])
      (by rw [hflags, hL, hl]
          exact pathSpec_flags H _ _ _ _ (by rw [leafHashes_length, leafHashes_length, hl]))
      (by rw [hx]; exact hfix _ _) (by rw [hnew]; exact hfix _ _)
      (fun h hh => by obtain ⟨y, rfl⟩ := hpath h hh; exact hfix _ _)
      (fun h hh => by obtain ⟨y, rfl⟩ := hpath1 h hh; exact hfix _ _)
      (heq.trans hv.symm)
    rcases hcol with hcol | hcol
    · exact absurd (hnew.symm.trans hcol.symm) hne
    · exact hcol
  · left
    exact congrArg Except.ok (decide_eq_false heq)

/-- Claim C8, witness: the theorem applied to the three-leaf example tree. -/
theorem C8_stale_proof_rejected_witness :
    ∃ root st1, UpdateLeaf toyHash 3 exampleState 0 [9] = .ok (.ok root, st1) ∧
      GetRootHash st1 = .ok root ∧
      (VerifyProof toyHash ⟨toyHash [1], [[7], toyHash [13, 13]], [false, false]⟩ root
          = .ok false ∨ ∃ a b, a ≠ b ∧ toyHash a = toyHash b) :=
  C8_stale_proof_rejected toyHash (fun _ _ => rfl) exampleState exampleState_reachable 3
    (by decide) 0 (by decide) (by decide) [9]
    ⟨toyHash [1], [[7], toyHash [13, 13]], [false, false]⟩ (by decide) (by decide)

/-- Claim C9 as stated fails: with the index list `[0, 0]` and the blocks `[8]`, `[9]` the batch
succeeds and the proof then generated for `leafIndices[0] = 0` has the digest of the last
block, `[9]`, not `H(newDatas[0])`. -/
theorem C9_counterexample_repeated_index :
    ∃ root st1 proof, UpdateLeaves toyHash 3 exampleState [0, 0] [[8], [9]]
        = .ok (.ok root, st1) ∧
      GenerateProof 3 st1 0 = .ok (.ok proof) ∧ proof.LeafHash = toyHash [9] ∧
      proof.LeafHash ≠ toyHash [8] :=
  ⟨_, _, _, rfl, rfl, rfl, by decide⟩

/-- Claim C9 (amended): in every reachable state, for equal-length `leafIndices`, `newDatas` whose
indices are all in `[0, N)`, `UpdateLeaves` succeeds, and afterwards for every position `k`
the proof generated for leaf `leafIndices[k]` verifies against the new root digest, and
has `LeafHash = H(newDatas[k])` when the index `leafIndices[k]` does not occur again at a
later position of the batch. -/
theorem C9_batch_update (H : Bytes → Bytes) (st : State) (hr : Reachable H st) (fuel : Nat)
    (hf : st.tree.LeafNodes.length ≤ fuel) (leafIndices : List Int) (newDatas : List Bytes)
    (hlen : leafIndices.length = newDatas.length)
    (hv : ∀ idx ∈ leafIndices, 0 ≤ idx ∧ idx < (st.tree.LeafNodes.length : Int)) :
    ∃ root st1, UpdateLeaves H fuel st leafIndices newDatas = .ok (.ok root, st1) ∧
      GetRootHash st1 = .ok root ∧
      ∀ (k : Nat) (idx : Int) (d : Bytes), leafIndices[k]? = some idx → newDatas[k]? = some d →
        ∃ proof, GenerateProof fuel st1 idx = .ok (.ok proof) ∧
          VerifyProof H proof root = .ok true ∧
          ((∀ k1, k < k1 → leafIndices[k1]? ≠ some idx) → proof.LeafHash = H d) := by
  have w := hr.wf
  have hv1 : ∀ idx ∈ leafIndices, ¬(idx < 0 ∨ idx ≥ (st.tree.LeafNodes.length : Int)) :=
    fun idx h => index_valid (hv idx h).1 (hv idx h).2
  obtain ⟨r, st1, hu⟩ := UpdateLeaves_total fuel leafIndices newDatas w hf
  obtain ⟨_, hl, hpost⟩ := UpdateLeaves_post w hu
  obtain ⟨root, rfl, hg, hc, hh⟩ := hpost hlen hv1
  refine ⟨root, st1, hu, hg, ?_⟩
  intro k idx d hk hd
  have hmem : idx ∈ leafIndices := List.mem_iff_getElem?.mpr ⟨k, hk⟩
  obtain ⟨proof, root1, hgen, hleaf, _, _, hr1, _, hver⟩ :=
    hc.proof_verifies fuel (by rw [hl]; exact hf) (by rw [hl]; exact hv1 idx hmem)
  rw [hg] at hr1
  cases hr1
  refine ⟨proof, hgen, hver, ?_⟩
  intro hlast
  have hidx := hv idx hmem
  rw [hleaf, hh, List.getD_eq_getElem?_getD,
    batchHashes_last H leafIndices (leafHashes st) newDatas k idx d (fun x hx => (hv x hx).1)
      (by rw [leafHashes_length]; omega) hk hd hlast]
  rfl

/-- Claim C9, witness: the theorem applied to the three-leaf example tree. -/
theorem C9_batch_update_witness :
    ∃ root st1, UpdateLeaves toyHash 3 exampleState [1, 2] [[8], [9]] = .ok (.ok root, st1) ∧
      GetRootHash st1 = .ok root ∧
      ∀ (k : Nat) (idx : Int) (d : Bytes), ([1, 2] : List Int)[k]? = some idx →
        ([[8], [9]] : List Bytes)[k]? = some d →
        ∃ proof, GenerateProof 3 st1 idx = .ok (.ok proof) ∧
          VerifyProof toyHash proof root = .ok true ∧
          ((∀ k1, k < k1 → ([1, 2] : List Int)[k1]? ≠ some idx) →
            proof.LeafHash = toyHash d) :=
  C9_batch_update toyHash exampleState exampleState_reachable 3 (by decide) [1, 2] [[8], [9]]
    (by decide) (by decide)

/-- Claim C10: for every non-empty block list `data`, valid index `i` and block `b`, the digest
returned by `NewMerkleTree(data).UpdateLeaf(i, b)` is the tree's `GetRootHash()` afterwards
and is the `GetRootHash()` of `NewMerkleTree(data1)`, where `data1` is `data` with element
`i` replaced by `b`. -/
theorem C10_update_equals_fresh_build (H : Bytes → Bytes) (data : List Bytes) (i : Int)
    (b : Bytes) (fuel : Nat) (h0 : 0 ≤ i) (h1 : i < (data.length : Int))
    (hf : data.length ≤ fuel) :
    ∃ st root st1 st2, NewMerkleTree H fuel data = .ok st ∧
      UpdateLeaf H fuel st i b = .ok (.ok root, st1) ∧ GetRootHash st1 = .ok root ∧
      NewMerkleTree H fuel (data.set i.toNat b) = .ok st2 ∧ GetRootHash st2 = .ok root := by
  have hl : 1 ≤ data.length := by omega
  obtain ⟨st, hst⟩ := NewMerkleTree_total H fuel data hl hf
  obtain ⟨hc, hh, hn⟩ := NewMerkleTree_post hst
  have hi : ¬(i < 0 ∨ i ≥ (st.tree.LeafNodes.length : Int)) :=
    index_valid h0 (by rw [hn]; exact h1)
  obtain ⟨r, st1, hu⟩ := UpdateLeaf_total fuel i b hc.wf (by omega)
  obtain ⟨root, rfl, hg, hc1, hl1, hh1⟩ := UpdateLeaf_post hc.wf hi hu
  obtain ⟨st2, hst2⟩ := NewMerkleTree_total H fuel (data.set i.toNat b) (by simpa using hl)
    (by simpa using hf)
  obtain ⟨hc2, hh2, hn2⟩ := NewMerkleTree_post hst2
  obtain ⟨root1, hg1, hr1⟩ := hc1.root_hash
  obtain ⟨root2, hg2, hr2⟩ := hc2.root_hash
  rw [hg] at hg1
  cases hg1
  have hsame : leafHashes st2 = leafHashes st1 := by
    rw [hh2, hh1, hh, List.map_set]
  have hlen : st2.tree.LeafNodes.length = st1.tree.LeafNodes.length := by
    rw [hn2, hl1, hn]; simp
  rw [hsame, hlen, ← hr1] at hr2
  cases hr2
  exact ⟨st, root, st1, st2, hst, hu, hg, hst2, hg2⟩

/-- Claim C10, witness: the theorem applied to the three-leaf example tree. -/
theorem C10_update_equals_fresh_build_witness :
    ∃ st root st1 st2, NewMerkleTree toyHash 3 [[1], [2], [3]] = .ok st ∧
      UpdateLeaf toyHash 3 st 1 [9] = .ok (.ok root, st1) ∧ GetRootHash st1 = .ok root ∧
      NewMerkleTree toyHash 3 ([[1], [2], [3]].set (1 : Int).toNat [9]) = .ok st2 ∧
      GetRootHash st2 = .ok root :=
  C10_update_equals_fresh_build toyHash [[1], [2], [3]] 1 [9] 3 (by decide) (by decide)
    (by decide)

theorem validateLoop_spec (heap : Heap) (d : Bytes) :
    ∀ leaves : List Nat, (∀ p ∈ leaves, p < heap.length) →
      validateLoop heap d leaves = .ok (decide (d ∈ leaves.map (hashOf heap)))
  | [], _ => by simp [validateLoop]
  | p :: rest, hv => by
    obtain ⟨n, hn⟩ := get_of_lt (hv p (by simp))
    have ih := validateLoop_spec heap d rest (fun q hq => hv q (List.mem_cons_of_mem _ hq))
    simp only [validateLoop, deref_of_get hn, List.map_cons, List.mem_cons, hashOf_of_get hn]
    by_cases h : n.Hash = d
    · simp [h]
    · have h1 : ¬ d = n.Hash := fun e => h e.symm
      simp only [h, if_false, ih, h1, false_or]

theorem GetLeafHash_eq_iff {H : Bytes → Bytes} {st : State} (w : WellFormed H st) (i : Int)
    (d : Bytes) :
    GetLeafHash st i = .ok (.ok d) ↔
      (0 ≤ i ∧ i < (st.tree.LeafNodes.length : Int)) ∧ (leafHashes st)[i.toNat]? = some d := by
  by_cases hi : i < 0 ∨ i ≥ (st.tree.LeafNodes.length : Int)
  · rw [GetLeafHash_invalid st i hi]
    constructor
    · intro h; cases h
    · intro h; omega
  · rw [GetLeafHash_valid w hi]
    have hl : i.toNat < (leafHashes st).length := by rw [leafHashes_length]; omega
    rw [List.getD_eq_getElem?_getD, List.getElem?_eq_getElem hl]
    constructor
    · intro h
      simp only [Option.getD_some, Except.ok.injEq] at h
      exact ⟨by omega, by rw [h]⟩
    · intro h
      simp only [Option.some.injEq] at h
      simp [h.2]

/-- Claim C11: in every reachable state and for every byte string `d`, `ValidateLeaf(d)`
returns true if and only if `d` is the digest `GetLeafHash(i)` returns for some leaf index
`i`; so it is true for every stored leaf digest and false for every other digest. -/
theorem C11_validate_leaf_iff_stored (H : Bytes → Bytes) (st : State) (hr : Reachable H st)
    (d : Bytes) :
    ∃ b, ValidateLeaf st d = .ok b ∧
      (b = true ↔ ∃ i : Int, GetLeafHash st i = .ok (.ok d)) := by
  have w := hr.wf
  refine ⟨decide (d ∈ leafHashes st), validateLoop_spec st.heap d _ w.valid, ?_⟩
  rw [decide_eq_true_eq]
  constructor
  · intro h
    obtain ⟨k, hk⟩ := List.mem_iff_getElem?.mp h
    have hkl : k < (leafHashes st).length := (List.getElem?_eq_some.mp hk).1
    rw [leafHashes_length] at hkl
    refine ⟨(k : Int), (GetLeafHash_eq_iff w _ d).mpr ⟨by omega, by simpa using hk⟩⟩
  · rintro ⟨i, hi⟩
    exact List.mem_iff_getElem?.mpr ⟨_, ((GetLeafHash_eq_iff w i d).mp hi).2⟩

/-- Claim C11, witness: on the three-leaf example tree, for the digest of the block `[2]`. -/
theorem C11_validate_leaf_iff_stored_witness :
    ∃ b, ValidateLeaf exampleState (toyHash [2]) = .ok b ∧
      (b = true ↔ ∃ i : Int, GetLeafHash exampleState i = .ok (.ok (toyHash [2]))) :=
  C11_validate_leaf_iff_stored toyHash exampleState exampleState_reachable (toyHash [2])

/-- Claim C12: for every non-empty block list `data` and every `0 ≤ i < len(data)`,
`NewMerkleTree(data)` has exactly `len(data)` leaves and `GetLeafHash(i)` returns
`H(data[i])` without error. -/
theorem C12_leaves_in_input_order (H : Bytes → Bytes) (data : List Bytes) (i : Int)
    (fuel : Nat) (hne : data ≠ []) (h0 : 0 ≤ i) (h1 : i < (data.length : Int))
    (hf : data.length ≤ fuel) :
    ∃ st, NewMerkleTree H fuel data = .ok st ∧ st.tree.LeafNodes.length = data.length ∧
      ∀ block, data[i.toNat]? = some block → GetLeafHash st i = .ok (.ok (H block)) := by
  obtain ⟨st, hst⟩ := NewMerkleTree_total H fuel data (List.length_pos.mpr hne) hf
  obtain ⟨hc, hh, hn⟩ := NewMerkleTree_post hst
  refine ⟨st, hst, hn, ?_⟩
  intro block hb
  rw [GetLeafHash_eq_iff hc.wf]
  exact ⟨⟨h0, by rw [hn]; exact h1⟩, by rw [hh, List.getElem?_map, hb]; rfl⟩

/-- Claim C12, witness: the blocks `[1]`, `[2]`, `[3]` and the index 1. -/
theorem C12_leaves_in_input_order_witness :
    ∃ st, NewMerkleTree toyHash 3 [[1], [2], [3]] = .ok st ∧
      st.tree.LeafNodes.length = ([[1], [2], [3]] : List Bytes).length ∧
      ∀ block, ([[1], [2], [3]] : List Bytes)[(1 : Int).toNat]? = some block →
        GetLeafHash st 1 = .ok (.ok (toyHash block)) :=
  C12_leaves_in_input_order toyHash [[1], [2], [3]] 1 3 (by decide) (by decide) (by decide)
    (by decide)

theorem GetLeafHash_congr {H : Bytes → Bytes} {st st1 : State} (w : WellFormed H st)
    (w1 : WellFormed H st1) (hl : st1.tree.LeafNodes.length = st.tree.LeafNodes.length)
    (j : Int) (hj : 0 ≤ j → j < (st.tree.LeafNodes.length : Int) →
      (leafHashes st1)[j.toNat]? = (leafHashes st)[j.toNat]?) :
    GetLeafHash st1 j = GetLeafHash st j := by
  by_cases hi : j < 0 ∨ j ≥ (st.tree.LeafNodes.length : Int)
  · rw [GetLeafHash_invalid st j hi, GetLeafHash_invalid st1 j (by rw [hl]; exact hi)]
  · rw [GetLeafHash_valid w hi, GetLeafHash_valid w1 (by rw [hl]; exact hi),
      List.getD_eq_getElem?_getD, List.getD_eq_getElem?_getD, hj (by omega) (by omega)]

/-- Claim C13: updates never change leaf order or count. In every reachable state, after
`UpdateLeaf(i, b)` with a valid `i` the leaf sequence is the same, `GetLeafHash(i)` is
`H(b)` and `GetLeafHash(j)` is unchanged for every `j ≠ i`; and after a successful
`UpdateLeaves` the leaf sequence is the same and `GetLeafHash(j)` is unchanged for every
`j` not among the listed indices. -/
theorem C13_updates_keep_other_leaves (H : Bytes → Bytes) (st : State) (hr : Reachable H st)
    (fuel : Nat) (hf : st.tree.LeafNodes.length ≤ fuel) :
    (∀ (i : Int) (b : Bytes), 0 ≤ i → i < (st.tree.LeafNodes.length : Int) →
      ∃ root st1, UpdateLeaf H fuel st i b = .ok (.ok root, st1) ∧
        st1.tree.LeafNodes = st.tree.LeafNodes ∧ GetLeafHash st1 i = .ok (.ok (H b)) ∧
        ∀ j : Int, j ≠ i → GetLeafHash st1 j = GetLeafHash st j) ∧
    (∀ (leafIndices : List Int) (newDatas : List Bytes) (root : Bytes) (st1 : State),
      UpdateLeaves H fuel st leafIndices newDatas = .ok (.ok root, st1) →
        st1.tree.LeafNodes = st.tree.LeafNodes ∧
        ∀ j : Int, j ∉ leafIndices → GetLeafHash st1 j = GetLeafHash st j) := by
  have w := hr.wf
  constructor
  · intro i b h0 h1
    have hi := index_valid h0 h1
    obtain ⟨r, st1, hu⟩ := UpdateLeaf_total fuel i b w hf
    obtain ⟨root, rfl, _, hc, hl, hh⟩ := UpdateLeaf_post w hi hu
    refine ⟨root, st1, hu, hl, ?_, ?_⟩
    · rw [GetLeafHash_eq_iff hc.wf]
      exact ⟨⟨h0, by rw [hl]; exact h1⟩,
        by rw [hh]; exact List.getElem?_set_self (by rw [leafHashes_length]; omega)⟩
    · intro j hj
      apply GetLeafHash_congr w hc.wf (by rw [hl])
      intro hj0 _
      rw [hh, List.getElem?_set_ne (by omega)]
  · intro idxs ds root st1 hu
    by_cases hlen : idxs.length ≠ ds.length
    · rw [UpdateLeaves_mismatch H fuel st idxs ds hlen] at hu
      simp at hu
    · have hlen1 : idxs.length = ds.length := by omega
      have hu0 := hu
      simp only [UpdateLeaves, hlen, if_false] at hu0
      cases hloop : updateLoop H st.tree ds st.heap idxs 0 with
      | error e => simp [hloop] at hu0
      | ok v =>
        obtain ⟨res, heap1⟩ := v
        obtain ⟨_, hnone, _⟩ := updateLoop_post H st.tree ds idxs st.heap 0 res heap1 w hloop
        cases res with
        | some e => simp [hloop] at hu0
        | none =>
          have hv := (hnone rfl).1
          obtain ⟨w1, hl, hpost⟩ := UpdateLeaves_post w hu
          obtain ⟨_, _, _, _, hh⟩ := hpost hlen1 hv
          refine ⟨hl, ?_⟩
          intro j hj
          apply GetLeafHash_congr w w1 (by rw [hl])
          intro hj0 _
          rw [hh]
          apply batchHashes_untouched
          intro x hx e
          have hxv := hv x hx
          have : x = j := by omega
          exact hj (this ▸ hx)

/-- Claim C13, witness: the theorem applied to the three-leaf example tree. -/
theorem C13_updates_keep_other_leaves_witness :
    (∀ (i : Int) (b : Bytes), 0 ≤ i → i < (exampleState.tree.LeafNodes.length : Int) →
      ∃ root st1, UpdateLeaf toyHash 3 exampleState i b = .ok (.ok root, st1) ∧
        st1.tree.LeafNodes = exampleState.tree.LeafNodes ∧
        GetLeafHash st1 i = .ok (.ok (toyHash b)) ∧
        ∀ j : Int, j ≠ i → GetLeafHash st1 j = GetLeafHash exampleState j) ∧
    (∀ (leafIndices : List Int) (newDatas : List Bytes) (root : Bytes) (st1 : State),
      UpdateLeaves toyHash 3 exampleState leafIndices newDatas = .ok (.ok root, st1) →
        st1.tree.LeafNodes = exampleState.tree.LeafNodes ∧
        ∀ j : Int, j ∉ leafIndices → GetLeafHash st1 j = GetLeafHash exampleState j) :=
  C13_updates_keep_other_leaves toyHash exampleState exampleState_reachable 3 (by decide)

/-- For a proof and a root whose slices have no spare capacity, and `Proof` and `IsLeft` of
equal length, `VerifyProof(proof, r)` returns, and it is true if and only if `r` is the
value of the fold that starts from `proof.LeafHash` and replaces `current` by
`H(sibling || current)` when `isLeft` and by `H(current || sibling)` otherwise, for each
`(sibling, isLeft)` in path order. -/
theorem VerifyProof_iff_fold (H : Bytes → Bytes) (proof : MerkleProof) (r : Bytes)
    (hlen : proof.Proof.length = proof.IsLeft.length) :
    ∃ b, VerifyProof H proof r = .ok b ∧
      (b = true ↔ r = foldPath H proof.LeafHash (proof.Proof.zip proof.IsLeft)) := by
  have h1 : (proof.Proof.zip proof.IsLeft).map (fun sb => sb.1) = proof.Proof :=
    List.map_fst_zip _ _ (by omega)
  have h2 : (proof.Proof.zip proof.IsLeft).map (fun sb => sb.2) = proof.IsLeft :=
    List.map_snd_zip _ _ (by omega)
  have h := VerifyProof_path H proof.LeafHash (proof.Proof.zip proof.IsLeft) r
  rw [h1, h2] at h
  refine ⟨_, h, ?_⟩
  rw [decide_eq_true_eq]
  exact eq_comm

/-- Claim C14 (the code at the failing input): a proof with `len(Proof) = len(IsLeft) = 2`
whose two siblings `[5]` and `[6]` lie side by side in one buffer, the first as `buf[0:1]`
with capacity 2. `hashNodes` appends the leaf digest `[9]` to the first sibling in place and
so overwrites the second. `VerifyProof` returns false for the candidate root that is the
fold of the bytes the proof shows, and true for a candidate root that is not. -/
theorem C14_spare_capacity_breaks_fold :
    aliasedProof.Proof.length = aliasedProof.IsLeft.length ∧
    readSlice (aliasedMemory []) aliasedProof.LeafHash = .ok [9] ∧
    aliasedProof.Proof.map (readSlice (aliasedMemory [])) = [.ok [5], .ok [6]] ∧
    (∃ mem1, Slices.VerifyProof toyHash
        (aliasedMemory (foldPath toyHash [9] [([5], true), ([6], false)])) aliasedProof
        ⟨2, 0, 1, 1⟩ = .ok (false, mem1) ∧
      aliasedProof.Proof.map (readSlice mem1) = [.ok [5], .ok [9]]) ∧
    foldPath toyHash [9] [([5], true), ([9], false)]
      ≠ foldPath toyHash [9] [([5], true), ([6], false)] ∧
    (∃ mem1, Slices.VerifyProof toyHash
        (aliasedMemory (foldPath toyHash [9] [([5], true), ([9], false)])) aliasedProof
        ⟨2, 0, 1, 1⟩ = .ok (true, mem1)) :=
  ⟨rfl, rfl, rfl, ⟨_, rfl, rfl⟩, by decide, ⟨_, rfl⟩⟩

/-- In a consistent state the three update outcomes that keep it consistent: `UpdateLeaf`
(with a digest or with the invalid-index error) and a `UpdateLeaves` that returns a
digest. -/
theorem Consistent.after_update {H : Bytes → Bytes} {st : State} (c : Consistent H st)
    (fuel : Nat) :
    (∀ (i : Int) (d : Bytes) (r : Except GoError Bytes) (st1 : State),
      UpdateLeaf H fuel st i d = .ok (r, st1) → Consistent H st1) ∧
    (∀ (idxs : List Int) (ds : List Bytes) (root : Bytes) (st1 : State),
      UpdateLeaves H fuel st idxs ds = .ok (.ok root, st1) → Consistent H st1) := by
  constructor
  · intro i d r st1 hu
    by_cases hi : i < 0 ∨ i ≥ (st.tree.LeafNodes.length : Int)
    · rw [UpdateLeaf_invalid H fuel st i d hi] at hu
      simp only [Except.ok.injEq, Prod.mk.injEq] at hu
      rw [← hu.2]; exact c
    · obtain ⟨_, _, _, hc, _⟩ := UpdateLeaf_post c.wf hi hu
      exact hc
  · intro idxs ds root st1 hu
    by_cases hlen : idxs.length ≠ ds.length
    · rw [UpdateLeaves_mismatch H fuel st idxs ds hlen] at hu
      simp at hu
    · have hu0 := hu
      simp only [UpdateLeaves, hlen, if_false] at hu0
      cases hloop : updateLoop H st.tree ds st.heap idxs 0 with
      | error e => simp [hloop] at hu0
      | ok v =>
        obtain ⟨res, heap1⟩ := v
        obtain ⟨_, hnone, _⟩ := updateLoop_post H st.tree ds idxs st.heap 0 res heap1 c.wf hloop
        cases res with
        | some e => simp [hloop] at hu0
        | none =>
          obtain ⟨_, _, hpost⟩ := UpdateLeaves_post c.wf hu
          obtain ⟨_, _, _, hc, _⟩ := hpost (by omega) (hnone rfl).1
          exact hc

/-- Claim C15 (the code at the failing input): the state `UpdateLeaves` leaves on the
three-leaf example tree when called with the indices `[0, 7]` is reachable, and in it the
stored root digest is not the root of the current leaf digests, the parent of the first two
leaves does not hold the digest of its children, and the proof of leaf 0 does not verify
against `GetRootHash()`. -/
theorem C15_failed_batch_breaks_consistency :
    ∃ st1 root proof, UpdateLeaves toyHash 3 exampleState [0, 7] [[9], [9]]
        = .ok (.error .invalidLeafIndex, st1) ∧
      Reachable toyHash st1 ∧
      GetRootHash st1 = .ok root ∧
      merkleRoot toyHash 3 (leafHashes st1) ≠ some root ∧
      (∃ n : Node, st1.heap[3]? = some n ∧ n.Left = some 0 ∧ n.Right = some 1 ∧
        hashNodes toyHash st1.heap 0 1 ≠ .ok n.Hash) ∧
      GenerateProof 3 st1 0 = .ok (.ok proof) ∧ VerifyProof toyHash proof root = .ok false := by
  have hu : UpdateLeaves toyHash 3 exampleState [0, 7] [[9], [9]]
      = .ok (.error .invalidLeafIndex,
          { exampleState with heap := exampleState.heap.set 0 ⟨none, none, some 3, toyHash [9]⟩ }) := by
    decide
  refine ⟨_, toyHash (toyHash [3, 7] ++ toyHash [13, 13]),
    ⟨toyHash [9], [[7], toyHash [13, 13]], [false, false]⟩, hu,
    Reachable.updateLeaves exampleState_reachable hu, by decide, by decide,
    ⟨⟨some 0, some 1, some 5, toyHash [3, 7]⟩, by decide, rfl, rfl, by decide⟩,
    by decide, by decide⟩

/-- Claim C16: in every reachable state (also after update calls that returned an error)
`GenerateProof` never returns the "sibling node is unexpectedly nil" error; for a valid
index it returns a proof, and it returns an error if and only if the index is out of
range. -/
theorem C16_sibling_error_unreachable (H : Bytes → Bytes) (st : State) (hr : Reachable H st)
    (fuel : Nat) (hf : st.tree.LeafNodes.length ≤ fuel) (i : Int) :
    GenerateProof fuel st i ≠ .ok (.error .siblingNil) ∧
      (¬(i < 0 ∨ i ≥ (st.tree.LeafNodes.length : Int)) →
        ∃ proof, GenerateProof fuel st i = .ok (.ok proof)) ∧
      ((∃ e, GenerateProof fuel st i = .ok (.error e)) ↔
        (i < 0 ∨ i ≥ (st.tree.LeafNodes.length : Int))) := by
  by_cases hi : i < 0 ∨ i ≥ (st.tree.LeafNodes.length : Int)
  · rw [GenerateProof_invalid fuel st i hi]
    exact ⟨by simp, fun h => absurd hi h, fun _ => hi, fun _ => ⟨_, rfl⟩⟩
  · obtain ⟨path, _, _, _, hg⟩ := hr.wf.proof_shape fuel hf hi
    rw [hg]
    exact ⟨by simp, fun _ => ⟨_, rfl⟩, fun ⟨e, he⟩ => by simp at he, fun h => absurd h hi⟩

/-- Claim C16, witness: the three-leaf example tree and the index 2. -/
theorem C16_sibling_error_unreachable_witness :
    GenerateProof 3 exampleState 2 ≠ .ok (.error .siblingNil) ∧
      (¬((2 : Int) < 0 ∨ (2 : Int) ≥ (exampleState.tree.LeafNodes.length : Int)) →
        ∃ proof, GenerateProof 3 exampleState 2 = .ok (.ok proof)) ∧
      ((∃ e, GenerateProof 3 exampleState 2 = .ok (.error e)) ↔
        ((2 : Int) < 0 ∨ (2 : Int) ≥ (exampleState.tree.LeafNodes.length : Int))) :=
  C16_sibling_error_unreachable toyHash exampleState exampleState_reachable 3 (by decide) 2

theorem setParent_returns (heap : Heap) (p q : Nat) (hp : p < heap.length) :
    ∃ heap1, setParent heap p q = .ok heap1 ∧ heap1.length = heap.length := by
  obtain ⟨n, hn⟩ := get_of_lt hp
  exact ⟨_, setParent_of_get hn, by simp⟩

/-- The loop of `buildTree` returns on every level of allocated nodes, with a next level of
`⌈n/2⌉` allocated nodes. -/
theorem buildLevel_returns (H : Bytes → Bytes) :
    ∀ (nodes : List Nat) (heap : Heap), (∀ p ∈ nodes, p < heap.length) →
      ∃ heap1 lvl, buildLevel H heap nodes = .ok (heap1, lvl) ∧
        lvl.length = (nodes.length + 1) / 2 ∧ heap.length ≤ heap1.length ∧
        ∀ q ∈ lvl, q < heap1.length
  | [], heap, _ => ⟨heap, [], rfl, rfl, Nat.le_refl _, by simp⟩
  | [a], heap, hv => by
    have ha : a < heap.length := hv a (by simp)
    obtain ⟨na, hna⟩ := get_of_lt ha
    obtain ⟨heap1, h1, hl1⟩ := setParent_returns
      (heap ++ [⟨some a, some a, none, H (hashOf heap a ++ hashOf heap a)⟩]) a
      heap.length (by simp; omega)
    refine ⟨heap1, [heap.length], ?_, by simp, ?_, ?_⟩
    · simp only [buildLevel, hashNodes_of_get H hna hna, h1]
    · rw [hl1]; simp
    · intro q hq
      simp only [List.mem_singleton] at hq
      rw [hl1, hq]; simp
  | a :: b :: rest, heap, hv => by
    have ha : a < heap.length := hv a (by simp)
    have hb : b < heap.length := hv b (by simp)
    obtain ⟨na, hna⟩ := get_of_lt ha
    obtain ⟨nb, hnb⟩ := get_of_lt hb
    obtain ⟨heap1, h1, hl1⟩ := setParent_returns
      (heap ++ [⟨some a, some b, none, H (hashOf heap a ++ hashOf heap b)⟩]) a
      heap.length (by simp; omega)
    have hl1a : heap1.length = heap.length + 1 := by rw [hl1]; simp
    obtain ⟨heap2, h2, hl2⟩ := setParent_returns heap1 b heap.length (by omega)
    obtain ⟨heap3, lvl, h3, hlen, hle, hval⟩ := buildLevel_returns H rest heap2
      (fun p hp => by have := hv p (by simp [hp]); omega)
    refine ⟨heap3, heap.length :: lvl,
      buildLevel_pair H (hashNodes_of_get H hna hnb) h1 h2 h3, ?_, by omega, ?_⟩
    · simp only [List.length_cons, hlen]; omega
    · intro q hq
      rcases List.mem_cons.mp hq with rfl | hq
      · omega
      · exact hval q hq

theorem buildTree_reaches_single (H : Bytes → Bytes) :
    ∀ (fuel : Nat) (heap : Heap) (nodes : List Nat), 1 ≤ nodes.length → nodes.length ≤ fuel →
      (∀ p ∈ nodes, p < heap.length) →
      ∃ k heap1 root, k < nodes.length ∧ buildLevels H k heap nodes = .ok (heap1, [root]) ∧
        buildTree H fuel heap nodes = .ok (heap1, root)
  | 0, _, _, h1, hf, _ => by omega
  | fuel + 1, heap, nodes, h1, hf, hv => by
    by_cases hone : nodes.length = 1
    · obtain ⟨r, rfl⟩ := List.length_eq_one.mp hone
      exact ⟨0, heap, r, by simp, rfl, by simp [buildTree]⟩
    · obtain ⟨heap1, lvl, hbl, hlen, _, hval⟩ := buildLevel_returns H nodes heap hv
      obtain ⟨k, heap2, root, hk, hlv, hbt⟩ :=
        buildTree_reaches_single H fuel heap1 lvl (by omega) (by omega) hval
      refine ⟨k + 1, heap2, root, by omega, ?_, ?_⟩
      · simp only [buildLevels, hbl]; exact hlv
      · simp only [buildTree, hone, if_false, hbl]; exact hbt

/-- Claim C17: on every non-empty list of allocated nodes the loop of `buildTree` returns a
next level of `⌈n/2⌉` nodes, fewer than `n` when `n ≥ 2`, and `buildTree` returns (with
any fuel of at least `n`): after fewer than `n` levels the recursion is at a level of
exactly one node, and that node is the root it returns. -/
theorem C17_buildTree_terminates (H : Bytes → Bytes) (heap : Heap) (nodes : List Nat)
    (fuel : Nat) (hne : nodes ≠ []) (hv : ∀ p ∈ nodes, p < heap.length)
    (hf : nodes.length ≤ fuel) :
    (∃ heap1 newLevel, buildLevel H heap nodes = .ok (heap1, newLevel) ∧
      newLevel.length = (nodes.length + 1) / 2 ∧
      (2 ≤ nodes.length → newLevel.length < nodes.length)) ∧
    ∃ k heap1 root, k < nodes.length ∧ buildLevels H k heap nodes = .ok (heap1, [root]) ∧
      buildTree H fuel heap nodes = .ok (heap1, root) := by
  constructor
  · obtain ⟨heap1, lvl, hbl, hlen, _, _⟩ := buildLevel_returns H nodes heap hv
    exact ⟨heap1, lvl, hbl, hlen, fun h2 => by omega⟩
  · exact buildTree_reaches_single H fuel heap nodes (List.length_pos.mpr hne) hf hv

/-- Claim C17, witness: the three leaves of the example tree, built again. -/
theorem C17_buildTree_terminates_witness :
    (∃ heap1 newLevel, buildLevel toyHash exampleState.heap [0, 1, 2] = .ok (heap1, newLevel) ∧
      newLevel.length = (([0, 1, 2] : List Nat).length + 1) / 2 ∧
      (2 ≤ ([0, 1, 2] : List Nat).length → newLevel.length < ([0, 1, 2] : List Nat).length)) ∧
    ∃ k heap1 root, k < ([0, 1, 2] : List Nat).length ∧
      buildLevels toyHash k exampleState.heap [0, 1, 2] = .ok (heap1, [root]) ∧
      buildTree toyHash 3 exampleState.heap [0, 1, 2] = .ok (heap1, root) :=
  C17_buildTree_terminates toyHash exampleState.heap [0, 1, 2] 3 (by decide) (by decide)
    (by decide)

theorem updateSeq_spec (H : Bytes → Bytes) (fuel : Nat) :
    ∀ (idxs : List Int) (ds : List Bytes) (last : Option (Except GoError Bytes)) (st : State),
      WellFormed H st → st.tree.LeafNodes.length ≤ fuel → idxs.length = ds.length →
      (∀ idx ∈ idxs, ¬(idx < 0 ∨ idx ≥ (st.tree.LeafNodes.length : Int))) →
      ∃ last1 st2, updateSeq H fuel last st idxs ds = .ok (last1, st2) ∧
        WellFormed H st2 ∧ st2.tree.LeafNodes = st.tree.LeafNodes ∧
        leafHashes st2 = batchHashes H (leafHashes st) idxs ds ∧
        (idxs ≠ [] → ∃ root, last1 = some (.ok root) ∧ GetRootHash st2 = .ok root ∧
          Consistent H st2)
  | [], ds, last, st, w, _, _, _ =>
    ⟨last, st, by simp [updateSeq], w, rfl, by simp [batchHashes], fun h => absurd rfl h⟩
  | idx :: rest, [], _, _, _, _, hlen, _ => by simp at hlen
  | idx :: rest, d :: ds, last, st, w, hf, hlen, hv => by
    have hi := hv idx (by simp)
    obtain ⟨r, st1, hu⟩ := UpdateLeaf_total fuel idx d w hf
    obtain ⟨root, rfl, hg, hc, hl, hh⟩ := UpdateLeaf_post w hi hu
    obtain ⟨last1, st2, hs, w2, hl2, hh2, hroot⟩ :=
      updateSeq_spec H fuel rest ds (some (.ok root)) st1 hc.wf (by rw [hl]; exact hf)
        (by simpa using hlen) (fun x hx => by rw [hl]; exact hv x (List.mem_cons_of_mem _ hx))
    refine ⟨last1, st2, by simp only [updateSeq, hu]; exact hs, w2, hl2.trans hl, ?_, ?_⟩
    · rw [hh2, hh]; simp only [batchHashes]
    · intro _
      cases rest with
      | nil =>
        cases ds with
        | nil =>
          simp only [updateSeq, Except.ok.injEq, Prod.mk.injEq] at hs
          obtain ⟨h1, h2⟩ := hs
          subst h1 h2
          exact ⟨root, rfl, hg, hc⟩
        | cons _ _ => simp at hlen
      | cons x rest => exact hroot (by simp)

/-- Claim C18: in every reachable state, for equal-length `leafIndices`, `newDatas` with all
indices in range, `UpdateLeaves(leafIndices, newDatas)` leaves the same leaf sequence and
leaf digests as the calls `UpdateLeaf(leafIndices[k], newDatas[k])` for `k = 0, 1, ...` in
order, and it returns the root digest the last of these calls returns, which is the root
digest of both final states. (For an empty batch no `UpdateLeaf` call is made; the two root
digests then agree when the state was consistent.) -/
theorem C18_batch_equals_sequential (H : Bytes → Bytes) (st : State) (hr : Reachable H st)
    (fuel : Nat) (hf : st.tree.LeafNodes.length ≤ fuel) (leafIndices : List Int)
    (newDatas : List Bytes) (hlen : leafIndices.length = newDatas.length)
    (hv : ∀ idx ∈ leafIndices, 0 ≤ idx ∧ idx < (st.tree.LeafNodes.length : Int)) :
    ∃ root st1 last st2, UpdateLeaves H fuel st leafIndices newDatas = .ok (.ok root, st1) ∧
      updateSeq H fuel none st leafIndices newDatas = .ok (last, st2) ∧
      st1.tree.LeafNodes = st2.tree.LeafNodes ∧
      (∀ j : Int, GetLeafHash st1 j = GetLeafHash st2 j) ∧
      (leafIndices ≠ [] → last = some (.ok root)) ∧
      GetRootHash st1 = .ok root ∧
      (leafIndices ≠ [] ∨ Consistent H st → GetRootHash st2 = .ok root) := by
  have w := hr.wf
  have hv1 : ∀ idx ∈ leafIndices, ¬(idx < 0 ∨ idx ≥ (st.tree.LeafNodes.length : Int)) :=
    fun idx h => index_valid (hv idx h).1 (hv idx h).2
  obtain ⟨r, st1, hu⟩ := UpdateLeaves_total fuel leafIndices newDatas w hf
  obtain ⟨w1, hl, hpost⟩ := UpdateLeaves_post w hu
  obtain ⟨root, rfl, hg, hc, hh⟩ := hpost hlen hv1
  obtain ⟨last, st2, hs, w2, hl2, hh2, hroot⟩ :=
    updateSeq_spec H fuel leafIndices newDatas none st w hf hlen hv1
  have hll : st1.tree.LeafNodes = st2.tree.LeafNodes := hl.trans hl2.symm
  have hsame : ∀ st3 : State, Consistent H st3 → st3.tree.LeafNodes = st2.tree.LeafNodes →
      leafHashes st3 = leafHashes st2 → GetRootHash st3 = .ok root := by
    intro st3 hc3 hl3 hh3
    obtain ⟨r1, hr1, hm1⟩ := hc.root_hash
    obtain ⟨r3, hr3, hm3⟩ := hc3.root_hash
    rw [hg] at hr1
    cases hr1
    rw [hh, hll, ← hh2, ← hh3, ← hl3, ← hm3] at hm1
    cases hm1
    exact hr3
  refine ⟨root, st1, last, st2, hu, hs, hll, ?_, ?_, hg, ?_⟩
  · intro j
    exact GetLeafHash_congr w2 w1 (by rw [hll]) j (fun _ _ => by rw [hh, hh2])
  · intro hne
    obtain ⟨root2, hlast, hg2, hc2⟩ := hroot hne
    have := hsame st2 hc2 rfl rfl
    rw [hg2] at this
    cases this
    exact hlast
  · intro hor
    by_cases hne : leafIndices = []
    · subst hne
      have hcs : Consistent H st := hor.resolve_left (fun h => h rfl)
      simp only [updateSeq, Except.ok.injEq, Prod.mk.injEq] at hs
      rw [← hs.2]
      exact hsame st hcs (by rw [hs.2]) (by rw [hs.2])
    · obtain ⟨root2, _, _, hc2⟩ := hroot hne
      exact hsame st2 hc2 rfl rfl

/-- Claim C18, witness: the example tree with a batch that names leaf 0 twice. -/
theorem C18_batch_equals_sequential_witness :
    ∃ root st1 last st2,
      UpdateLeaves toyHash 3 exampleState [0, 2, 0] [[7], [8], [9]] = .ok (.ok root, st1) ∧
      updateSeq toyHash 3 none exampleState [0, 2, 0] [[7], [8], [9]] = .ok (last, st2) ∧
      st1.tree.LeafNodes = st2.tree.LeafNodes ∧
      (∀ j : Int, GetLeafHash st1 j = GetLeafHash st2 j) ∧
      (([0, 2, 0] : List Int) ≠ [] → last = some (.ok root)) ∧
      GetRootHash st1 = .ok root ∧
      (([0, 2, 0] : List Int) ≠ [] ∨ Consistent toyHash exampleState →
        GetRootHash st2 = .ok root) :=
  C18_batch_equals_sequential toyHash exampleState exampleState_reachable 3 (by decide)
    [0, 2, 0] [[7], [8], [9]] (by decide) (by decide)

theorem levelHashes_append_last (H : Bytes → Bytes) :
    ∀ (hs : List Bytes) (last : Bytes), hs.length % 2 = 1 → hs.getLast? = some last →
      levelHashes H (hs ++ [last]) = levelHashes H hs
  | [], _, h, _ => by simp at h
  | [a], last, _, hl => by
    simp at hl
    subst hl
    simp [levelHashes]
  | a :: b :: rest, last, h, hl => by
    have hr : rest.length % 2 = 1 := by simp only [List.length_cons] at h; omega
    have hne : rest ≠ [] := by intro e; subst e; simp at hr
    have hl1 : rest.getLast? = some last := by
      rw [List.getLast?_cons_cons, List.getLast?_eq_getLast _ (by simp)] at hl
      cases rest with
      | nil => exact absurd rfl hne
      | cons x xs =>
        rw [List.getLast?_eq_getLast _ (by simp)]
        simpa using hl
    have ih := levelHashes_append_last H rest last hr hl1
    show levelHashes H (a :: b :: (rest ++ [last])) = levelHashes H (a :: b :: rest)
    simp only [levelHashes, ih]

/-- Claim C19: for every block list `data` of odd length `N ≥ 3` whose last block is `last`,
`NewMerkleTree(data)` and `NewMerkleTree(data ++ [last])` have the same root digest,
though they have `N` and `N + 1` leaves. -/
theorem C19_duplicated_last_block_same_root (H : Bytes → Bytes) (data : List Bytes)
    (last : Bytes) (fuel : Nat) (hodd : data.length % 2 = 1) (h3 : 3 ≤ data.length)
    (hlast : data.getLast? = some last) (hf : data.length + 1 ≤ fuel) :
    ∃ st st2 root, NewMerkleTree H fuel data = .ok st ∧
      NewMerkleTree H fuel (data ++ [last]) = .ok st2 ∧
      GetRootHash st = .ok root ∧ GetRootHash st2 = .ok root ∧
      st.tree.LeafNodes.length = data.length ∧
      st2.tree.LeafNodes.length = data.length + 1 := by
  obtain ⟨st, hst⟩ := NewMerkleTree_total H fuel data (by omega) (by omega)
  obtain ⟨st2, hst2⟩ := NewMerkleTree_total H fuel (data ++ [last]) (by simp) (by simpa using hf)
  obtain ⟨hc, hh, hn⟩ := NewMerkleTree_post hst
  obtain ⟨hc2, hh2, hn2⟩ := NewMerkleTree_post hst2
  obtain ⟨r1, hr1, hm1⟩ := hc.root_hash
  obtain ⟨r2, hr2, hm2⟩ := hc2.root_hash
  have hn2a : st2.tree.LeafNodes.length = data.length + 1 := by rw [hn2]; simp
  have hodd1 : (data.map H).length % 2 = 1 := by simpa using hodd
  have hlast1 : (data.map H).getLast? = some (H last) := by
    rw [List.getLast?_map, hlast]; rfl
  rw [hn, hh, merkleRoot_fuel H data.length (data.length + 1) (data.map H) (by simp; omega)
    (by simp) (by simp)] at hm1
  rw [hn2a, hh2, List.map_append, List.map_singleton] at hm2
  have e1 : merkleRoot H (data.length + 1) (data.map H ++ [H last])
      = merkleRoot H (data.length + 1) (data.map H) := by
    simp only [merkleRoot, List.length_append, List.length_map, List.length_singleton]
    rw [if_neg (by omega), if_neg (by omega), levelHashes_append_last H _ _ hodd1 hlast1]
  rw [e1, ← hm1] at hm2
  cases hm2
  exact ⟨st, st2, r1, hst, hst2, hr1, hr2, hn, hn2a⟩

/-- Claim C19, witness: the blocks `[1]`, `[2]`, `[3]` and `[1]`, `[2]`, `[3]`, `[3]`. -/
theorem C19_duplicated_last_block_same_root_witness :
    ∃ st st2 root, NewMerkleTree toyHash 4 [[1], [2], [3]] = .ok st ∧
      NewMerkleTree toyHash 4 ([[1], [2], [3]] ++ [[3]]) = .ok st2 ∧
      GetRootHash st = .ok root ∧ GetRootHash st2 = .ok root ∧
      st.tree.LeafNodes.length = ([[1], [2], [3]] : List Bytes).length ∧
      st2.tree.LeafNodes.length = ([[1], [2], [3]] : List Bytes).length + 1 :=
  C19_duplicated_last_block_same_root toyHash [[1], [2], [3]] [3] 4 (by decide) (by decide)
    (by decide) (by decide)

theorem pathSpec_height (H : Bytes → Bytes) :
    ∀ (f : Nat) (hs : List Bytes) (j : Nat), 1 ≤ hs.length → hs.length ≤ f →
      hs.length ≤ 2 ^ (pathSpec H f hs j).length ∧
      ((pathSpec H f hs j).length = 0 ∨ 2 ^ ((pathSpec H f hs j).length - 1) < hs.length)
  | 0, hs, _, h1, hf => by omega
  | f + 1, hs, j, h1, hf => by
    simp only [pathSpec]
    split
    · rename_i hone
      simp [hone]
    · rename_i hone
      have hl := levelHashes_length H hs
      obtain ⟨ih1, ih2⟩ := pathSpec_height H f (levelHashes H hs) (j / 2) (by omega) (by omega)
      simp only [List.length_cons, Nat.add_sub_cancel]
      rw [hl] at ih1 ih2
      constructor
      · rw [Nat.pow_succ]; omega
      · right
        cases hm : (pathSpec H f (levelHashes H hs) (j / 2)).length with
        | zero => simp; omega
        | succ m =>
          rw [hm] at ih2
          simp only [Nat.add_sub_cancel] at ih2
          rw [Nat.pow_succ]
          omega

/-- Claim C20: for every tree built from `N ≥ 1` blocks and every valid index `i`, the
proof `GenerateProof(i)` returns has `len(Proof) = len(IsLeft) = k`, where `k` is the least
number with `2^k ≥ N`, and its `LeafHash` is what `GetLeafHash(i)` returns; for a single
block `k = 0` and the root digest is `H(block)`. -/
theorem C20_proof_shape (H : Bytes → Bytes) (data : List Bytes) (i : Int) (fuel : Nat)
    (hne : data ≠ []) (h0 : 0 ≤ i) (h1 : i < (data.length : Int)) (hf : data.length ≤ fuel) :
    ∃ st proof, NewMerkleTree H fuel data = .ok st ∧
      GenerateProof fuel st i = .ok (.ok proof) ∧
      proof.Proof.length = proof.IsLeft.length ∧
      data.length ≤ 2 ^ proof.Proof.length ∧
      (∀ k, data.length ≤ 2 ^ k → proof.Proof.length ≤ k) ∧
      GetLeafHash st i = .ok (.ok proof.LeafHash) ∧
      (∀ block, data = [block] → proof.Proof = [] ∧ GetRootHash st = .ok (H block)) := by
  have hl : 1 ≤ data.length := List.length_pos.mpr hne
  obtain ⟨st, hst⟩ := NewMerkleTree_total H fuel data hl hf
  obtain ⟨hc, hh, hn⟩ := NewMerkleTree_post hst
  have hi : ¬(i < 0 ∨ i ≥ (st.tree.LeafNodes.length : Int)) :=
    index_valid h0 (by rw [hn]; exact h1)
  obtain ⟨proof, root, hg, hleaf, hP, hL, hr, hroot, _⟩ :=
    hc.proof_verifies fuel (by omega) hi
  have hlen : (leafHashes st).length = data.length := by rw [hh]; simp
  obtain ⟨hh1, hh2⟩ := pathSpec_height H st.tree.LeafNodes.length (leafHashes st) i.toNat
    (by omega) (by rw [hlen, hn])
  have hPl : proof.Proof.length
      = (pathSpec H st.tree.LeafNodes.length (leafHashes st) i.toNat).length := by
    rw [hP]; simp
  rw [← hPl, hlen] at hh1 hh2
  refine ⟨st, proof, hst, hg, by rw [hP, hL]; simp, hh1, ?_, ?_, ?_⟩
  · intro k hk
    rcases hh2 with hh2 | hh2
    · omega
    · have hlt : 2 ^ (proof.Proof.length - 1) < 2 ^ k := Nat.lt_of_lt_of_le hh2 hk
      have := (Nat.pow_lt_pow_iff_right (by decide : 1 < 2)).mp hlt
      omega
  · rw [GetLeafHash_valid hc.wf hi, hleaf]
  · intro block hb
    subst hb
    have hlh : leafHashes st = [H block] := by rw [hh]; rfl
    have hn1 : st.tree.LeafNodes.length = 1 := by rw [hn]; rfl
    rw [hn1, hlh] at hP hroot
    simp only [pathSpec, List.length_singleton, if_true, List.map_nil] at hP
    simp only [merkleRoot, List.length_singleton, if_true, List.getElem?_cons_zero,
      Option.some.injEq] at hroot
    exact ⟨hP, by rw [hr, hroot]⟩

/-- Claim C20, witness: the blocks `[1]`, `[2]`, `[3]` and the index 2. -/
theorem C20_proof_shape_witness :
    ∃ st proof, NewMerkleTree toyHash 3 [[1], [2], [3]] = .ok st ∧
      GenerateProof 3 st 2 = .ok (.ok proof) ∧
      proof.Proof.length = proof.IsLeft.length ∧
      ([[1], [2], [3]] : List Bytes).length ≤ 2 ^ proof.Proof.length ∧
      (∀ k, ([[1], [2], [3]] : List Bytes).length ≤ 2 ^ k → proof.Proof.length ≤ k) ∧
      GetLeafHash st 2 = .ok (.ok proof.LeafHash) ∧
      (∀ block, ([[1], [2], [3]] : List Bytes) = [block] →
        proof.Proof = [] ∧ GetRootHash st = .ok (toyHash block)) :=
  C20_proof_shape toyHash [[1], [2], [3]] 2 3 (by decide) (by decide) (by decide) (by decide)

end Merkle
